import Mathlib

/-!
Per-prefix statistics of the cache server (`stats.c`)

A shallow embedding of `stats.c`: the table of prefix records, the five
entry points that change it and the textual dump.

Modelling conventions.

* A C byte buffer is a `List Char`; a read past the modelled bytes yields the
  terminating NUL byte (`byte_at`).
* A bucket chain (`next` pointers) is a list, head first.  A pointer to a
  record of the table is the pair (bucket index, position in the chain).
* `memcached.h` is not among the sources.  `PREFIX_HASH_SIZE` is the number
  of elements of the `prefix_stats` array and is read off that array; `hash`
  is a parameter of every function that calls it; the counters of
  `PREFIX_STATS` are `uint64_t` and are incremented modulo `2 ^ 64`.
* `num_prefixes` and `total_prefix_size` are C `int`s, and so are `pos` and
  `*length` in `stats_prefix_dump`.  Two embeddings stand side by side.
  `Table`, `stats_prefix_find`, `run`, `stats_prefix_dump` count without
  wrap-around: the counters, `pos` and `*length` are natural numbers.
  `TableInt`, `stats_prefix_find_int`, `run_int`, `stats_prefix_dump_int`
  compute as the code does: every value stored in an `int` is reduced to the
  range of `int` (`int32`), the buffer size is computed in `size_t`.  After
  the same calls the two have the same buckets, records and delimiter and
  return the same pointers, and the `int` counters are the counters without
  wrap-around stored in `int`s (`find_ints`, `run_ints`); the dumps agree
  while the counters and the length of the report stay below `2 ^ 31`
  (`dump_int_agrees`).
* `calloc` and `malloc` may fail; whether they succeed is an input of the
  call (`Alloc`, `malloc_ok`).
* `STATS_LOCK` / `STATS_UNLOCK` have no sequential effect and are left out.
-/

namespace Stats

/-- The NUL byte that terminates a C string. -/
def NUL : Char := Char.ofNat 0

/-- The byte `s[i]` of a C buffer; past the modelled bytes stands the terminating NUL. -/
def byte_at (s : List Char) (i : Nat) : Char := s.getD i NUL

/-- The contents of a buffer read as a C string: the bytes before the first NUL. -/
def cstr (s : List Char) : List Char := s.takeWhile (fun c => c ≠ NUL)

/-- The record `struct _prefix_stats`; the field `prefix_` holds the bytes of the
allocated buffer in front of its final terminator, `next` is the tail of the chain. -/
structure PREFIX_STATS where
  prefix_ : List Char
  prefix_len : Nat
  num_gets : Nat
  num_sets : Nat
  num_deletes : Nat
  num_hits : Nat
deriving DecidableEq, Repr

/-- The static variables of `stats.c`, the two counters without wrap-around: what
`num_prefixes++` and `total_prefix_size += length` have added up since the last reset.
`TableInt` has them as the `int`s of the code. -/
structure Table where
  prefix_stats : List (List PREFIX_STATS)
  prefix_delimiter : Char
  num_prefixes : Nat
  total_prefix_size : Nat
deriving DecidableEq, Repr

/-- The constant `PREFIX_HASH_SIZE`: the number of elements of `prefix_stats`. -/
def PREFIX_HASH_SIZE (t : Table) : Nat := t.prefix_stats.length

/-- The statics at process start: every pointer NULL, `prefix_delimiter` zero,
both counters `0`, for a table of `n` buckets. -/
def process_start (n : Nat) : Table :=
  { prefix_stats := List.replicate n [], prefix_delimiter := NUL,
    num_prefixes := 0, total_prefix_size := 0 }

/-- The function `stats_prefix_init`: stores the delimiter and zeroes the bucket array. -/
def stats_prefix_init (delimiter : Char) (t : Table) : Table :=
  { t with prefix_delimiter := delimiter,
           prefix_stats := List.replicate (PREFIX_HASH_SIZE t) [] }

/-- The function `stats_prefix_clear`: frees every chain, sets every bucket to NULL
and resets both counters. -/
def stats_prefix_clear (t : Table) : Table :=
  { t with prefix_stats := t.prefix_stats.map (fun _ => []),
           num_prefixes := 0, total_prefix_size := 0 }

/-- The scanning loop of `stats_prefix_find`, `fuel = nkey - length` iterations
left: `some length` when the loop breaks on the delimiter, `none` when it ends
with `bailout` still true. -/
def scan_key (delimiter : Char) (key : List Char) : Nat → Nat → Option Nat
  | 0, _ => none
  | fuel + 1, length =>
    if byte_at key length = NUL then none
    else if byte_at key length = delimiter then some length
    else scan_key delimiter key fuel (length + 1)

/-- The test `strncmp(s1, s2, n) == 0`: at most `n` bytes are compared and the
comparison stops after a NUL byte. -/
def strncmp_eq : List Char → List Char → Nat → Bool
  | _, _, 0 => true
  | s1, s2, n + 1 =>
    if byte_at s1 0 ≠ byte_at s2 0 then false
    else if byte_at s1 0 = NUL then true
    else strncmp_eq s1.tail s2.tail n

/-- The bytes `strncpy(dst, src, n)` stores: the string in `src` cut at `n` bytes,
padded with NUL bytes up to `n`. -/
def strncpy (src : List Char) (n : Nat) : List Char :=
  (cstr src ++ List.replicate n NUL).take n

/-- The chain walk of `stats_prefix_find`: the position of the first record whose
prefix passes the `strncmp` test against the key. -/
def find_in_chain (key : List Char) (length : Nat) : List PREFIX_STATS → Option Nat
  | [] => none
  | pfs :: next =>
    if strncmp_eq pfs.prefix_ key length then some 0
    else (find_in_chain key length next).map (fun i => i + 1)

/-- Whether the two allocations of `stats_prefix_find` succeed. -/
structure Alloc where
  calloc_ok : Bool
  malloc_ok : Bool
deriving DecidableEq, Repr

/-- Both allocations succeed. -/
def Alloc.success : Alloc := { calloc_ok := true, malloc_ok := true }

/-- The record `stats_prefix_find` allocates: `calloc` zeroes the counters, the
prefix is copied with `strncpy` and terminated, `prefix_len` is the scanned length. -/
def new_record (key : List Char) (length : Nat) : PREFIX_STATS :=
  { prefix_ := strncpy key length, prefix_len := length,
    num_gets := 0, num_sets := 0, num_deletes := 0, num_hits := 0 }

/-- The function `stats_prefix_find`: the table after the call and the returned
pointer, `none` for NULL, `some (hashval, i)` for record `i` of chain `hashval`.
The two counters are advanced without wrap-around; `stats_prefix_find_int` advances
them as `int`s. -/
def stats_prefix_find (hash : List Char → Nat) (t : Table) (key : List Char) (nkey : Nat)
    (mem : Alloc) : Table × Option (Nat × Nat) :=
  match scan_key t.prefix_delimiter key nkey 0 with
  | none => (t, none)
  | some length =>
    let hashval := hash (key.take length) % PREFIX_HASH_SIZE t
    match find_in_chain key length (t.prefix_stats.getD hashval []) with
    | some i => (t, some (hashval, i))
    | none =>
      if mem.calloc_ok = false then (t, none)
      else if mem.malloc_ok = false then (t, none)
      else
        ({ t with prefix_stats :=
                    t.prefix_stats.set hashval
                      (new_record key length :: t.prefix_stats.getD hashval []),
                  num_prefixes := t.num_prefixes + 1,
                  total_prefix_size := t.total_prefix_size + length },
         some (hashval, 0))

/-- Applies `f` to element `n` of a list. -/
def modify_at {α : Type} (f : α → α) : Nat → List α → List α
  | _, [] => []
  | 0, x :: xs => f x :: xs
  | n + 1, x :: xs => x :: modify_at f n xs

/-- The record a pointer returned by `stats_prefix_find` points to. -/
def deref (t : Table) (p : Nat × Nat) : Option PREFIX_STATS :=
  (t.prefix_stats.getD p.1 [])[p.2]?

/-- A write through a record pointer: `f` applied to the record `p` points to. -/
def update_record (f : PREFIX_STATS → PREFIX_STATS) (t : Table) (p : Nat × Nat) : Table :=
  { t with prefix_stats := modify_at (modify_at f p.2) p.1 t.prefix_stats }

/-- The increment `++` of a `uint64_t` counter. -/
def incr64 (n : Nat) : Nat := (n + 1) % 2 ^ 64

/-- The body of `stats_prefix_record_get` under `NULL != pfs`. -/
def bump_get (is_hit : Bool) (pfs : PREFIX_STATS) : PREFIX_STATS :=
  let pfs1 := { pfs with num_gets := incr64 pfs.num_gets }
  if is_hit then { pfs1 with num_hits := incr64 pfs1.num_hits } else pfs1

/-- The function `stats_prefix_record_get`. -/
def stats_prefix_record_get (hash : List Char → Nat) (t : Table) (key : List Char)
    (nkey : Nat) (is_hit : Bool) (mem : Alloc) : Table :=
  match stats_prefix_find hash t key nkey mem with
  | (t1, some pfs) => update_record (bump_get is_hit) t1 pfs
  | (t1, none) => t1

/-- The function `stats_prefix_record_delete`. -/
def stats_prefix_record_delete (hash : List Char → Nat) (t : Table) (key : List Char)
    (nkey : Nat) (mem : Alloc) : Table :=
  match stats_prefix_find hash t key nkey mem with
  | (t1, some pfs) =>
    update_record (fun r => { r with num_deletes := incr64 r.num_deletes }) t1 pfs
  | (t1, none) => t1

/-- The function `stats_prefix_record_set`. -/
def stats_prefix_record_set (hash : List Char → Nat) (t : Table) (key : List Char)
    (nkey : Nat) (mem : Alloc) : Table :=
  match stats_prefix_find hash t key nkey mem with
  | (t1, some pfs) =>
    update_record (fun r => { r with num_sets := incr64 r.num_sets }) t1 pfs
  | (t1, none) => t1

/-- The format string of `stats_prefix_dump`. -/
def format : String := "PREFIX %s get %llu hit %llu set %llu del %llu\r\n"

/-- The conversion `%llu`: unsigned decimal digits. -/
def dec (n : Nat) : List Char := Nat.toDigits 10 n

/-- The text `format` expands to for one record: `%s` prints the prefix up to its
terminator, each `%llu` a counter. -/
def format_line (pfs : PREFIX_STATS) : List Char :=
  "PREFIX ".toList ++ cstr pfs.prefix_ ++ " get ".toList ++ dec pfs.num_gets ++
    " hit ".toList ++ dec pfs.num_hits ++ " set ".toList ++ dec pfs.num_sets ++
    " del ".toList ++ dec pfs.num_deletes ++ "\r\n".toList

/-- The call `snprintf(dst, n, ...)` for the expanded text `s`: the bytes stored in
front of the terminator (at most `n - 1`) and the returned length of `s`. -/
def snprintf (n : Nat) (s : List Char) : List Char × Nat := (s.take (n - 1), s.length)

/-- The locals of the writing loop without wrap-around: the bytes `buf[0 .. pos)`, `pos`,
`total_written`. -/
structure DumpState where
  buf : List Char
  pos : Nat
  total_written : Nat
deriving DecidableEq, Repr

/-- The inner loop of `stats_prefix_dump` over one chain, `pos` counted without
wrap-around (`dump_chain_int` keeps it in an `int`); `none` when
`assert(total_written < size)` fails. -/
def dump_chain (size : Nat) : List PREFIX_STATS → DumpState → Option DumpState
  | [], st => some st
  | pfs :: next, st =>
    let out := snprintf (size - st.pos) (format_line pfs)
    let st1 : DumpState :=
      { buf := st.buf ++ out.1, pos := st.pos + out.2,
        total_written := st.total_written + out.2 }
    if st1.total_written < size then dump_chain size next st1 else none

/-- The outer loop of `stats_prefix_dump` over the buckets in index order. -/
def dump_buckets (size : Nat) : List (List PREFIX_STATS) → DumpState → Option DumpState
  | [], st => some st
  | chain :: rest, st =>
    match dump_chain size chain st with
    | some st1 => dump_buckets size rest st1
    | none => none

/-- The outcomes of `stats_prefix_dump`. -/
inductive DumpResult where
  /-- The buffer could not be allocated: NULL is returned. -/
  | null : DumpResult
  /-- The assertion `total_written < size` failed. -/
  | assert_failed : DumpResult
  /-- The final `memcpy` of six bytes would end past the buffer. -/
  | overrun : DumpResult
  /-- The bytes written to the buffer, terminator included, and `*length`. -/
  | ok (buf : List Char) (length : Nat) : DumpResult
deriving DecidableEq, Repr

/-- The buffer size of `stats_prefix_dump` as a natural number, computed from the fields
of `Table`, `sizeof("END\r\n")` being `6`; `dump_size_int` is the `size_t` the code
computes from the two `int`s. -/
def dump_size (t : Table) : Nat :=
  format.length + t.total_prefix_size +
    t.num_prefixes * (format.length - 2 + 4 * (20 - 4)) + 6

/-- The function `stats_prefix_dump` computed without wrap-around of `num_prefixes`,
`total_prefix_size`, `pos` and `*length`; `stats_prefix_dump_int` keeps them in `int`s. -/
def stats_prefix_dump (t : Table) (malloc_ok : Bool) : DumpResult :=
  let size := dump_size t
  if malloc_ok = false then DumpResult.null
  else
    match dump_buckets size t.prefix_stats { buf := [], pos := 0, total_written := 0 } with
    | none => DumpResult.assert_failed
    | some st =>
      if st.pos + 6 ≤ size then
        DumpResult.ok (st.buf ++ "END\r\n".toList ++ [NUL]) (st.pos + 5)
      else DumpResult.overrun

/-- A call of one of the entry points that change the table. -/
inductive Op where
  | init (delimiter : Char) : Op
  | clear : Op
  | record_get (key : List Char) (nkey : Nat) (is_hit : Bool) (mem : Alloc) : Op
  | record_delete (key : List Char) (nkey : Nat) (mem : Alloc) : Op
  | record_set (key : List Char) (nkey : Nat) (mem : Alloc) : Op
deriving DecidableEq, Repr

/-- The table after one call. -/
def step (hash : List Char → Nat) (t : Table) : Op → Table
  | Op.init delimiter => stats_prefix_init delimiter t
  | Op.clear => stats_prefix_clear t
  | Op.record_get key nkey is_hit mem => stats_prefix_record_get hash t key nkey is_hit mem
  | Op.record_delete key nkey mem => stats_prefix_record_delete hash t key nkey mem
  | Op.record_set key nkey mem => stats_prefix_record_set hash t key nkey mem

/-- The table after a sequence of calls. -/
def run (hash : List Char → Nat) (t : Table) (ops : List Op) : Table :=
  ops.foldl (step hash) t

/-- The records of the table in dump order: buckets by index, each chain head first. -/
def all_records (t : Table) : List PREFIX_STATS := t.prefix_stats.flatten

/-- The report of `stats_prefix_dump` without its final `END` line. -/
def report_lines (t : Table) : List Char := ((all_records t).map format_line).flatten


/-- The counters of a record are values of type `uint64_t`. -/
def counters_fit (r : PREFIX_STATS) : Prop :=
  r.num_gets < 2 ^ 64 ∧ r.num_sets < 2 ^ 64 ∧ r.num_deletes < 2 ^ 64 ∧ r.num_hits < 2 ^ 64

instance (r : PREFIX_STATS) : Decidable (counters_fit r) := by
  unfold counters_fit
  infer_instance

/-- The text one chain contributes to the report. -/
def chain_lines (chain : List PREFIX_STATS) : List Char := (chain.map format_line).flatten

/-- The sum of the string lengths of the stored prefixes. -/
def prefix_bytes (rs : List PREFIX_STATS) : Nat := (rs.map (fun r => (cstr r.prefix_).length)).sum

/-- The counters of the table bound its records: `num_prefixes` is at least the
number of records, `total_prefix_size` at least the sum of their prefix lengths,
and every counter is a `uint64_t` value. -/
def counts_cover (t : Table) : Prop :=
  (all_records t).length ≤ t.num_prefixes ∧
  prefix_bytes (all_records t) ≤ t.total_prefix_size ∧
  ∀ r ∈ all_records t, counters_fit r


/-- The counter updates a call makes on the record it resolves to. -/
def apply_op : Op → PREFIX_STATS → PREFIX_STATS
  | Op.record_get _ _ is_hit _ => bump_get is_hit
  | Op.record_delete _ _ _ => fun r => { r with num_deletes := incr64 r.num_deletes }
  | Op.record_set _ _ _ => fun r => { r with num_sets := incr64 r.num_sets }
  | _ => id

/-- The number of `record_get` calls in a sequence. -/
def get_calls (ops : List Op) : Nat :=
  ops.countP (fun op => match op with | Op.record_get _ _ _ _ => true | _ => false)

/-- The number of `record_get` calls with `is_hit` set. -/
def hit_calls (ops : List Op) : Nat :=
  ops.countP (fun op => match op with | Op.record_get _ _ is_hit _ => is_hit | _ => false)

/-- The number of `record_set` calls in a sequence. -/
def set_calls (ops : List Op) : Nat :=
  ops.countP (fun op => match op with | Op.record_set _ _ _ => true | _ => false)

/-- The number of `record_delete` calls in a sequence. -/
def delete_calls (ops : List Op) : Nat :=
  ops.countP (fun op => match op with | Op.record_delete _ _ _ => true | _ => false)

/-- The record of the prefix `P` as `stats_prefix_find` creates it: all counters zero. -/
def fresh_record (P : List Char) : PREFIX_STATS :=
  { prefix_ := P, prefix_len := P.length, num_gets := 0, num_sets := 0, num_deletes := 0,
    num_hits := 0 }

/-- A hash function under which every prefix falls into the same bucket. -/
def colliding_hash : List Char → Nat := fun _ => 7

/-- The bucket `stats_prefix_find` computes for a key scanned up to `length`. -/
def bucket_of (hash : List Char → Nat) (t : Table) (key : List Char) (length : Nat) : Nat :=
  hash (key.take length) % PREFIX_HASH_SIZE t

/-- The table `stats_prefix_find` leaves when it allocates a record: the new record is
the head of its bucket and both counters are advanced. -/
def table_with_new (hash : List Char → Nat) (t : Table) (key : List Char) (length : Nat) :
    Table :=
  { t with prefix_stats :=
             t.prefix_stats.set (bucket_of hash t key length)
               (new_record key length :: t.prefix_stats.getD (bucket_of hash t key length) []),
           num_prefixes := t.num_prefixes + 1,
           total_prefix_size := t.total_prefix_size + length }

/-- Outcome (1) of `stats_prefix_find` for a key scanned up to `p`: the table is left as
it was and the returned pointer is to a record already in the bucket of the key. -/
def find_returned_existing (hash : List Char → Nat) (t : Table) (key : List Char)
    (nkey p : Nat) : Prop :=
  (stats_prefix_find hash t key nkey Alloc.success).1 = t ∧
  ∃ i R, (stats_prefix_find hash t key nkey Alloc.success).2 =
      some (hash (key.take p) % PREFIX_HASH_SIZE t, i) ∧
    (t.prefix_stats.getD (hash (key.take p) % PREFIX_HASH_SIZE t) [])[i]? = some R

/-- Outcome (2) of `stats_prefix_find` for a key scanned up to `p`: the returned pointer
is to a new record with prefix `key[0 .. p)`, length `p` and zero counters at the head
of the bucket of the key, in front of the chain that was there; the other buckets, the
number of buckets and the delimiter are as before, `num_prefixes` has grown by one and
`total_prefix_size` by `p`. -/
def find_created_new (hash : List Char → Nat) (t : Table) (key : List Char)
    (nkey p : Nat) : Prop :=
  (stats_prefix_find hash t key nkey Alloc.success).2 =
    some (hash (key.take p) % PREFIX_HASH_SIZE t, 0) ∧
  (stats_prefix_find hash t key nkey Alloc.success).1.prefix_stats.getD
      (hash (key.take p) % PREFIX_HASH_SIZE t) [] =
    { prefix_ := key.take p, prefix_len := p, num_gets := 0, num_sets := 0,
      num_deletes := 0, num_hits := 0 } ::
      t.prefix_stats.getD (hash (key.take p) % PREFIX_HASH_SIZE t) [] ∧
  (∀ i, i ≠ hash (key.take p) % PREFIX_HASH_SIZE t →
    (stats_prefix_find hash t key nkey Alloc.success).1.prefix_stats.getD i [] =
      t.prefix_stats.getD i []) ∧
  (stats_prefix_find hash t key nkey Alloc.success).1.prefix_stats.length =
    t.prefix_stats.length ∧
  (stats_prefix_find hash t key nkey Alloc.success).1.prefix_delimiter =
    t.prefix_delimiter ∧
  (stats_prefix_find hash t key nkey Alloc.success).1.num_prefixes = t.num_prefixes + 1 ∧
  (stats_prefix_find hash t key nkey Alloc.success).1.total_prefix_size =
    t.total_prefix_size + p

/-- The key, its length and the allocation outcome of a record call. -/
def call_args : Op → Option (List Char × Nat × Alloc)
  | Op.record_get key nkey _ mem => some (key, nkey, mem)
  | Op.record_delete key nkey mem => some (key, nkey, mem)
  | Op.record_set key nkey mem => some (key, nkey, mem)
  | _ => none

/-- The call is not `init`. -/
def not_init : Op → Prop
  | Op.init _ => False
  | _ => True

instance (op : Op) : Decidable (not_init op) := by
  cases op <;> unfold not_init <;> infer_instance

/-- The counters of the table are exact: `num_prefixes` is the number of records,
`total_prefix_size` the sum of their `prefix_len`, and `prefix_len` is the length of
the stored prefix, which holds no NUL byte. -/
def counts_exact (t : Table) : Prop :=
  t.num_prefixes = (all_records t).length ∧
  t.total_prefix_size = ((all_records t).map (fun r => r.prefix_len)).sum ∧
  ∀ r ∈ all_records t, r.prefix_len = r.prefix_.length ∧ NUL ∉ r.prefix_

/-- The call is a record call on a key that `stats_prefix_find` tracks under the
delimiter `d`: the scan finds the delimiter. -/
def tracked (d : Char) (op : Op) : Bool :=
  match call_args op with
  | some (key, nkey, _) => (scan_key d key nkey 0).isSome
  | none => false

/-- The number of `record_get` calls with a tracked key. -/
def tracked_gets (d : Char) (ops : List Op) : Nat :=
  ops.countP (fun op => tracked d op &&
    match op with | Op.record_get _ _ _ _ => true | _ => false)

/-- The number of `record_get` calls with a tracked key and `is_hit` set. -/
def tracked_hits (d : Char) (ops : List Op) : Nat :=
  ops.countP (fun op => tracked d op &&
    match op with | Op.record_get _ _ is_hit _ => is_hit | _ => false)

/-- The number of `record_set` calls with a tracked key. -/
def tracked_sets (d : Char) (ops : List Op) : Nat :=
  ops.countP (fun op => tracked d op &&
    match op with | Op.record_set _ _ _ => true | _ => false)

/-- The number of `record_delete` calls with a tracked key. -/
def tracked_deletes (d : Char) (ops : List Op) : Nat :=
  ops.countP (fun op => tracked d op &&
    match op with | Op.record_delete _ _ _ => true | _ => false)

/-- The sum of `num_gets` over all records. -/
def sum_gets (t : Table) : Nat := ((all_records t).map (fun r => r.num_gets)).sum

/-- The sum of `num_hits` over all records. -/
def sum_hits (t : Table) : Nat := ((all_records t).map (fun r => r.num_hits)).sum

/-- The sum of `num_sets` over all records. -/
def sum_sets (t : Table) : Nat := ((all_records t).map (fun r => r.num_sets)).sum

/-- The sum of `num_deletes` over all records. -/
def sum_deletes (t : Table) : Nat := ((all_records t).map (fun r => r.num_deletes)).sum

/-- A record call with both allocations succeeding. -/
def record_call_ok (op : Op) : Prop :=
  ∃ key nkey, call_args op = some (key, nkey, Alloc.success)

/-- The value a C `int` holds after the integer `x` is stored in it: `x` modulo
`2 ^ 32`, between `-2 ^ 31` and `2 ^ 31 - 1` (two's complement, the conversion of gcc). -/
def int32 (x : Int) : Int := (x + 2147483648) % 4294967296 - 2147483648

/-- The value a `size_t` holds after the integer `x` is stored in it: `x` modulo `2 ^ 64`. -/
def size_t_of (x : Int) : Nat := (x % 18446744073709551616).toNat

/-- The static variables of `stats.c` with `num_prefixes` and `total_prefix_size` as the
C `int`s they are. -/
structure TableInt where
  prefix_stats : List (List PREFIX_STATS)
  prefix_delimiter : Char
  num_prefixes : Int
  total_prefix_size : Int
deriving DecidableEq, Repr

/-- The statics at process start, for a table of `n` buckets. -/
def process_start_int (n : Nat) : TableInt :=
  { prefix_stats := List.replicate n [], prefix_delimiter := NUL,
    num_prefixes := 0, total_prefix_size := 0 }

/-- The function `stats_prefix_init`: stores the delimiter and zeroes the bucket array;
the two `int`s are not written. -/
def stats_prefix_init_int (delimiter : Char) (t : TableInt) : TableInt :=
  { t with prefix_delimiter := delimiter,
           prefix_stats := List.replicate t.prefix_stats.length [] }

/-- The function `stats_prefix_clear`. -/
def stats_prefix_clear_int (t : TableInt) : TableInt :=
  { t with prefix_stats := t.prefix_stats.map (fun _ => []),
           num_prefixes := 0, total_prefix_size := 0 }

/-- The function `stats_prefix_find` with the two counters updated as `int`s:
`num_prefixes++` and `total_prefix_size += length` store their sums in an `int`. -/
def stats_prefix_find_int (hash : List Char → Nat) (t : TableInt) (key : List Char)
    (nkey : Nat) (mem : Alloc) : TableInt × Option (Nat × Nat) :=
  match scan_key t.prefix_delimiter key nkey 0 with
  | none => (t, none)
  | some length =>
    let hashval := hash (key.take length) % t.prefix_stats.length
    match find_in_chain key length (t.prefix_stats.getD hashval []) with
    | some i => (t, some (hashval, i))
    | none =>
      if mem.calloc_ok = false then (t, none)
      else if mem.malloc_ok = false then (t, none)
      else
        ({ t with prefix_stats :=
                    t.prefix_stats.set hashval
                      (new_record key length :: t.prefix_stats.getD hashval []),
                  num_prefixes := int32 (t.num_prefixes + 1),
                  total_prefix_size := int32 (t.total_prefix_size + (length : Int)) },
         some (hashval, 0))

/-- A write through a record pointer. -/
def update_record_int (f : PREFIX_STATS → PREFIX_STATS) (t : TableInt) (p : Nat × Nat) :
    TableInt :=
  { t with prefix_stats := modify_at (modify_at f p.2) p.1 t.prefix_stats }

/-- The function `stats_prefix_record_get`. -/
def stats_prefix_record_get_int (hash : List Char → Nat) (t : TableInt) (key : List Char)
    (nkey : Nat) (is_hit : Bool) (mem : Alloc) : TableInt :=
  match stats_prefix_find_int hash t key nkey mem with
  | (t1, some pfs) => update_record_int (bump_get is_hit) t1 pfs
  | (t1, none) => t1

/-- The function `stats_prefix_record_delete`. -/
def stats_prefix_record_delete_int (hash : List Char → Nat) (t : TableInt) (key : List Char)
    (nkey : Nat) (mem : Alloc) : TableInt :=
  match stats_prefix_find_int hash t key nkey mem with
  | (t1, some pfs) =>
    update_record_int (fun r => { r with num_deletes := incr64 r.num_deletes }) t1 pfs
  | (t1, none) => t1

/-- The function `stats_prefix_record_set`. -/
def stats_prefix_record_set_int (hash : List Char → Nat) (t : TableInt) (key : List Char)
    (nkey : Nat) (mem : Alloc) : TableInt :=
  match stats_prefix_find_int hash t key nkey mem with
  | (t1, some pfs) =>
    update_record_int (fun r => { r with num_sets := incr64 r.num_sets }) t1 pfs
  | (t1, none) => t1

/-- The statics after one call. -/
def step_int (hash : List Char → Nat) (t : TableInt) : Op → TableInt
  | Op.init delimiter => stats_prefix_init_int delimiter t
  | Op.clear => stats_prefix_clear_int t
  | Op.record_get key nkey is_hit mem =>
    stats_prefix_record_get_int hash t key nkey is_hit mem
  | Op.record_delete key nkey mem => stats_prefix_record_delete_int hash t key nkey mem
  | Op.record_set key nkey mem => stats_prefix_record_set_int hash t key nkey mem

/-- The statics after a sequence of calls. -/
def run_int (hash : List Char → Nat) (t : TableInt) (ops : List Op) : TableInt :=
  ops.foldl (step_int hash) t

/-- The statics of the code for a `Table`: the same buckets and delimiter, each counter
stored in an `int`. -/
def ints_of (t : Table) : TableInt :=
  { prefix_stats := t.prefix_stats, prefix_delimiter := t.prefix_delimiter,
    num_prefixes := int32 (t.num_prefixes : Int),
    total_prefix_size := int32 (t.total_prefix_size : Int) }

/-- The buffer size `stats_prefix_dump` computes from the two `int`s: the operands are
converted to `size_t` and added modulo `2 ^ 64`. -/
def dump_size_int (t : TableInt) : Nat :=
  size_t_of ((format.length : Int) + t.total_prefix_size +
    t.num_prefixes * ((format.length : Int) - 2 + 4 * (20 - 4)) + 6)

/-- The call `snprintf(dst, n, ...)` with its `int` result: the bytes stored in front of
the terminator and the length of the expanded text, `-1` when that length is above
`INT_MAX`. -/
def snprintf_int (n : Nat) (s : List Char) : List Char × Int :=
  (s.take (n - 1), if s.length < 2147483648 then (s.length : Int) else -1)

/-- The writing loop of `stats_prefix_dump` with `pos` as the `int` it is: the loop
runs with the bytes written, `pos` and `total_written`, or it has stopped because the
assertion failed or because `buf + pos` was outside the buffer. -/
inductive DumpLoop where
  | running (buf : List Char) (pos : Int) (total_written : Nat) : DumpLoop
  | assert_failed : DumpLoop
  | overrun (pos : Int) : DumpLoop
deriving DecidableEq, Repr

/-- One pass of the loop body of `stats_prefix_dump`: `snprintf` at `buf + pos` with
room `size - pos`, `pos += written` into the `int`, `total_written += written` into
the `size_t`, then the assertion. -/
def dump_line_int (size : Nat) (pfs : PREFIX_STATS) : DumpLoop → DumpLoop
  | DumpLoop.running buf pos total =>
    if pos < 0 ∨ (size : Int) < pos then DumpLoop.overrun pos
    else
      let out := snprintf_int (size - pos.toNat) (format_line pfs)
      let written := size_t_of out.2
      if (total + written) % 18446744073709551616 < size then
        DumpLoop.running (buf ++ out.1) (int32 (pos + (written : Int)))
          ((total + written) % 18446744073709551616)
      else DumpLoop.assert_failed
  | stop => stop

/-- The inner loop of `stats_prefix_dump` over one chain, with the `int` `pos`. -/
def dump_chain_int (size : Nat) : List PREFIX_STATS → DumpLoop → DumpLoop
  | [], st => st
  | pfs :: next, st => dump_chain_int size next (dump_line_int size pfs st)

/-- The outer loop of `stats_prefix_dump` over the buckets, with the `int` `pos`. -/
def dump_buckets_int (size : Nat) : List (List PREFIX_STATS) → DumpLoop → DumpLoop
  | [], st => st
  | chain :: rest, st => dump_buckets_int size rest (dump_chain_int size chain st)

/-- The outcomes of `stats_prefix_dump` with `*length` as the `int` it is. -/
inductive DumpResultInt where
  /-- The buffer could not be allocated: NULL is returned. -/
  | null : DumpResultInt
  /-- The assertion `total_written < size` failed. -/
  | assert_failed : DumpResultInt
  /-- A call of `snprintf` at `buf + pos` outside the buffer. -/
  | overrun (pos : Int) : DumpResultInt
  /-- The final `memcpy` of six bytes at `buf + pos` is not inside the buffer; `*length`
  is then set to `pos + 5`. -/
  | memcpy_outside (pos : Int) (length : Int) : DumpResultInt
  /-- The bytes written to the buffer, terminator included, and `*length`. -/
  | ok (buf : List Char) (length : Int) : DumpResultInt
deriving DecidableEq, Repr

/-- The function `stats_prefix_dump` as the code computes it: `size` from the two `int`
counters, `pos` and `*length` in `int`s, `written` and `total_written` in `size_t`s. -/
def stats_prefix_dump_int (t : TableInt) (malloc_ok : Bool) : DumpResultInt :=
  let size := dump_size_int t
  if malloc_ok = false then DumpResultInt.null
  else
    match dump_buckets_int size t.prefix_stats (DumpLoop.running [] 0 0) with
    | DumpLoop.assert_failed => DumpResultInt.assert_failed
    | DumpLoop.overrun pos => DumpResultInt.overrun pos
    | DumpLoop.running buf pos _ =>
      if 0 ≤ pos ∧ pos + 6 ≤ (size : Int) then
        DumpResultInt.ok (buf ++ "END\r\n".toList ++ [NUL]) (int32 (pos + 5))
      else DumpResultInt.memcpy_outside pos (int32 (pos + 5))

/-- A key of `n` bytes `c` followed by the delimiter `[`. -/
def big_key (c : Char) (n : Nat) : List Char := List.replicate n c ++ ['[']

/-- The record of the prefix of `n` bytes `c` after one `record_get` miss. -/
def big_record (c : Char) (n : Nat) : PREFIX_STATS :=
  { prefix_ := List.replicate n c, prefix_len := n, num_gets := 1, num_sets := 0,
    num_deletes := 0, num_hits := 0 }

/-- The buckets of a table of 16 that holds, in bucket 7, the records of the prefixes of
`n` bytes `c` for the letters `c` of `cs`. -/
def big_buckets (cs : List Char) (n : Nat) : List (List PREFIX_STATS) :=
  (List.replicate 16 []).set 7 (cs.map (fun c => big_record c n))

/-- The table of 16 buckets with the delimiter `[` that holds, in bucket 7, the records
of the prefixes of `n` bytes `c` for the letters `c` of `cs`, the last recorded first,
the two counters without wrap-around. -/
def big_table (cs : List Char) (n : Nat) : Table :=
  { prefix_stats := big_buckets cs n,
    prefix_delimiter := '[', num_prefixes := cs.length, total_prefix_size := cs.length * n }

/-- One `record_get` miss on `big_key c n` for every letter `c` of `cs`. -/
def big_gets (cs : List Char) (n : Nat) : List Op :=
  cs.map (fun c => Op.record_get (big_key c n) (n + 1) false Alloc.success)


/-! ## The dump -/

theorem format_length : format.length = 47 := by decide

theorem dec_length_le (n : Nat) (h : n < 2 ^ 64) : (dec n).length ≤ 20 := by
  unfold dec Nat.toDigits
  exact Nat.toDigitsCore_length 10 (by decide) (n + 1) n 20 (by omega) (by decide)

theorem format_line_length (r : PREFIX_STATS) :
    (format_line r).length =
      29 + (cstr r.prefix_).length + (dec r.num_gets).length + (dec r.num_hits).length +
        (dec r.num_sets).length + (dec r.num_deletes).length := by
  simp [format_line]
  omega

theorem format_line_length_le (r : PREFIX_STATS) (h : counters_fit r) :
    (format_line r).length ≤ 109 + (cstr r.prefix_).length := by
  obtain ⟨hg, hs, hd, hh⟩ := h
  have h1 := dec_length_le _ hg
  have h2 := dec_length_le _ hs
  have h3 := dec_length_le _ hd
  have h4 := dec_length_le _ hh
  rw [format_line_length]
  omega

theorem chain_lines_cons (r : PREFIX_STATS) (chain : List PREFIX_STATS) :
    chain_lines (r :: chain) = format_line r ++ chain_lines chain := by
  simp [chain_lines]

theorem chain_lines_append (c1 c2 : List PREFIX_STATS) :
    chain_lines (c1 ++ c2) = chain_lines c1 ++ chain_lines c2 := by
  simp [chain_lines]

theorem dump_chain_ok (size : Nat) (chain : List PREFIX_STATS) (st : DumpState)
    (htot : st.total_written = st.pos)
    (hfit : st.pos + (chain_lines chain).length < size) :
    dump_chain size chain st =
      some { buf := st.buf ++ chain_lines chain,
             pos := st.pos + (chain_lines chain).length,
             total_written := st.pos + (chain_lines chain).length } := by
  induction chain generalizing st with
  | nil =>
    cases st
    simp_all [dump_chain, chain_lines]
  | cons r next ih =>
    rw [chain_lines_cons, List.length_append] at hfit
    have htake : List.take (size - st.pos - 1) (format_line r) = format_line r :=
      List.take_of_length_le (by omega)
    simp only [dump_chain, snprintf, htot]
    rw [if_pos (by omega), ih _ rfl (by simpa using by omega)]
    simp [chain_lines_cons, htake, Nat.add_assoc]

theorem dump_buckets_ok (size : Nat) (buckets : List (List PREFIX_STATS)) (st : DumpState)
    (htot : st.total_written = st.pos)
    (hfit : st.pos + (chain_lines buckets.flatten).length < size) :
    dump_buckets size buckets st =
      some { buf := st.buf ++ chain_lines buckets.flatten,
             pos := st.pos + (chain_lines buckets.flatten).length,
             total_written := st.pos + (chain_lines buckets.flatten).length } := by
  induction buckets generalizing st with
  | nil =>
    cases st
    simp_all [dump_buckets, chain_lines]
  | cons chain rest ih =>
    rw [List.flatten_cons, chain_lines_append, List.length_append] at hfit
    simp only [dump_buckets]
    rw [dump_chain_ok size chain st htot (by omega)]
    simp only
    rw [ih _ rfl (by simpa using by omega)]
    simp [chain_lines_append, Nat.add_assoc]

theorem chain_lines_length_le (rs : List PREFIX_STATS) (h : ∀ r ∈ rs, counters_fit r) :
    (chain_lines rs).length ≤ 109 * rs.length + prefix_bytes rs := by
  induction rs with
  | nil => simp [chain_lines, prefix_bytes]
  | cons r rest ih =>
    have h1 := format_line_length_le r (h r (List.mem_cons_self _ _))
    have h2 := ih (fun x hx => h x (List.mem_cons_of_mem _ hx))
    simp only [chain_lines_cons, List.length_append, List.length_cons, prefix_bytes,
      List.map_cons, List.sum_cons] at *
    omega

theorem dump_size_eq (t : Table) :
    dump_size t = 53 + t.total_prefix_size + t.num_prefixes * 109 := by
  simp [dump_size, format_length]
  omega

theorem report_lines_bound (t : Table) (h : counts_cover t) :
    (report_lines t).length + 53 ≤ dump_size t := by
  obtain ⟨h1, h2, h3⟩ := h
  have h4 := chain_lines_length_le (all_records t) h3
  have h5 : 109 * (all_records t).length ≤ 109 * t.num_prefixes := Nat.mul_le_mul_left _ h1
  rw [dump_size_eq]
  simp only [report_lines, chain_lines] at *
  omega

theorem dump_of_cover (t : Table) (h : counts_cover t) :
    stats_prefix_dump t true =
      DumpResult.ok (report_lines t ++ "END\r\n".toList ++ [NUL]) ((report_lines t).length + 5) := by
  have hb := report_lines_bound t h
  have e : report_lines t = chain_lines t.prefix_stats.flatten := rfl
  rw [e] at hb ⊢
  have hrun := dump_buckets_ok (dump_size t) t.prefix_stats
    { buf := [], pos := 0, total_written := 0 } rfl (by simp only; omega)
  simp only [stats_prefix_dump, hrun]
  rw [if_neg (by decide), if_pos (by omega)]
  simp



/-! ## The counters cover the records in every reachable state -/

theorem flatten_replicate_nil (n : Nat) :
    (List.replicate n ([] : List PREFIX_STATS)).flatten = [] := by
  induction n with
  | zero => rfl
  | succ n ih => simp [List.replicate_succ, ih]

theorem flatten_map_nil (l : List (List PREFIX_STATS)) :
    (l.map (fun _ => ([] : List PREFIX_STATS))).flatten = [] := by
  induction l with
  | nil => rfl
  | cons c cs ih => simp [ih]

/-- Prepending a record to chain `h` inserts it at one place of the dump order. -/
theorem flatten_set_cons (l : List (List PREFIX_STATS)) (h : Nat) (x : PREFIX_STATS)
    (hh : h < l.length) :
    ∃ l1 l2, l.flatten = l1 ++ l2 ∧ (l.set h (x :: l.getD h [])).flatten = l1 ++ x :: l2 := by
  induction l generalizing h with
  | nil => simp at hh
  | cons c cs ih =>
    cases h with
    | zero => exact ⟨[], c ++ cs.flatten, by simp, by simp⟩
    | succ h =>
      obtain ⟨l1, l2, e1, e2⟩ := ih h (by simpa using hh)
      refine ⟨c ++ l1, l2, by simp [e1], ?_⟩
      simp only [List.set_cons_succ, List.flatten_cons, List.getD_cons_succ, e2,
        List.append_assoc]

theorem modify_at_chain (f : PREFIX_STATS → PREFIX_STATS) (i : Nat) (c : List PREFIX_STATS) :
    modify_at f i c = c ∨
      ∃ l1 r l2, c = l1 ++ r :: l2 ∧ modify_at f i c = l1 ++ f r :: l2 := by
  induction c generalizing i with
  | nil => left; cases i <;> rfl
  | cons x xs ih =>
    cases i with
    | zero => right; exact ⟨[], x, xs, rfl, rfl⟩
    | succ i =>
      rcases ih i with e | ⟨l1, r, l2, e1, e2⟩
      · left; simp [modify_at, e]
      · right; exact ⟨x :: l1, r, l2, by simp [e1], by simp [modify_at, e2]⟩

/-- A write through a record pointer changes at most one record of the dump order. -/
theorem flatten_modify_at (f : PREFIX_STATS → PREFIX_STATS) (b i : Nat)
    (l : List (List PREFIX_STATS)) :
    (modify_at (modify_at f i) b l).flatten = l.flatten ∨
      ∃ l1 r l2, l.flatten = l1 ++ r :: l2 ∧
        (modify_at (modify_at f i) b l).flatten = l1 ++ f r :: l2 := by
  induction l generalizing b with
  | nil => left; cases b <;> rfl
  | cons c cs ih =>
    cases b with
    | zero =>
      rcases modify_at_chain f i c with e | ⟨l1, r, l2, e1, e2⟩
      · left; simp [modify_at, e]
      · right
        exact ⟨l1, r, l2 ++ cs.flatten, by simp [e1], by simp [modify_at, e2]⟩
    | succ b =>
      rcases ih b with e | ⟨l1, r, l2, e1, e2⟩
      · left; simp [modify_at, e]
      · right
        exact ⟨c ++ l1, r, l2, by simp [e1], by simp [modify_at, e2]⟩

theorem prefix_bytes_append (l1 l2 : List PREFIX_STATS) :
    prefix_bytes (l1 ++ l2) = prefix_bytes l1 + prefix_bytes l2 := by
  simp [prefix_bytes]

theorem prefix_bytes_cons (r : PREFIX_STATS) (l : List PREFIX_STATS) :
    prefix_bytes (r :: l) = (cstr r.prefix_).length + prefix_bytes l := by
  simp [prefix_bytes]

theorem cstr_length_le (s : List Char) : (cstr s).length ≤ s.length := by
  unfold cstr
  induction s with
  | nil => simp
  | cons c cs ih =>
    simp only [List.takeWhile_cons]
    split
    · simpa using ih
    · simp

theorem strncpy_length (src : List Char) (n : Nat) : (strncpy src n).length = n := by
  simp [strncpy]

theorem incr64_lt (n : Nat) : incr64 n < 2 ^ 64 := Nat.mod_lt _ (by decide)

theorem counts_cover_process_start (n : Nat) : counts_cover (process_start n) := by
  simp [counts_cover, all_records, process_start, flatten_replicate_nil, prefix_bytes]

theorem counts_cover_init (d : Char) (t : Table) : counts_cover (stats_prefix_init d t) := by
  simp [counts_cover, all_records, stats_prefix_init, flatten_replicate_nil, prefix_bytes]

theorem counts_cover_clear (t : Table) : counts_cover (stats_prefix_clear t) := by
  simp [counts_cover, all_records, stats_prefix_clear, flatten_map_nil, prefix_bytes]

theorem find_untracked (hash : List Char → Nat) (t : Table) (key : List Char) (nkey : Nat)
    (mem : Alloc) (hs : scan_key t.prefix_delimiter key nkey 0 = none) :
    stats_prefix_find hash t key nkey mem = (t, none) := by
  simp [stats_prefix_find, hs]

theorem find_existing (hash : List Char → Nat) (t : Table) (key : List Char) (nkey : Nat)
    (mem : Alloc) (length i : Nat) (hs : scan_key t.prefix_delimiter key nkey 0 = some length)
    (hc : find_in_chain key length
      (t.prefix_stats.getD (hash (key.take length) % PREFIX_HASH_SIZE t) []) = some i) :
    stats_prefix_find hash t key nkey mem =
      (t, some (hash (key.take length) % PREFIX_HASH_SIZE t, i)) := by
  simp only [stats_prefix_find, hs, hc]

theorem find_alloc_fails (hash : List Char → Nat) (t : Table) (key : List Char) (nkey : Nat)
    (mem : Alloc) (length : Nat) (hs : scan_key t.prefix_delimiter key nkey 0 = some length)
    (hc : find_in_chain key length
      (t.prefix_stats.getD (hash (key.take length) % PREFIX_HASH_SIZE t) []) = none)
    (hm : mem.calloc_ok = false ∨ mem.malloc_ok = false) :
    stats_prefix_find hash t key nkey mem = (t, none) := by
  rcases hm with hm | hm <;> simp only [stats_prefix_find, hs, hc, hm] <;> simp

theorem find_created (hash : List Char → Nat) (t : Table) (key : List Char) (nkey : Nat)
    (mem : Alloc) (length : Nat) (hs : scan_key t.prefix_delimiter key nkey 0 = some length)
    (hc : find_in_chain key length
      (t.prefix_stats.getD (hash (key.take length) % PREFIX_HASH_SIZE t) []) = none)
    (h1 : mem.calloc_ok = true) (h2 : mem.malloc_ok = true) :
    stats_prefix_find hash t key nkey mem =
      ({ t with prefix_stats :=
                  t.prefix_stats.set (hash (key.take length) % PREFIX_HASH_SIZE t)
                    (new_record key length ::
                      t.prefix_stats.getD (hash (key.take length) % PREFIX_HASH_SIZE t) []),
                num_prefixes := t.num_prefixes + 1,
                total_prefix_size := t.total_prefix_size + length },
       some (hash (key.take length) % PREFIX_HASH_SIZE t, 0)) := by
  simp only [stats_prefix_find, hs, hc, h1, h2]
  simp

theorem counts_cover_find (hash : List Char → Nat) (t : Table) (key : List Char) (nkey : Nat)
    (mem : Alloc) (h : counts_cover t) :
    counts_cover (stats_prefix_find hash t key nkey mem).1 := by
  cases hs : scan_key t.prefix_delimiter key nkey 0 with
  | none => rw [find_untracked hash t key nkey mem hs]; exact h
  | some length =>
    cases hc : find_in_chain key length
        (t.prefix_stats.getD (hash (key.take length) % PREFIX_HASH_SIZE t) []) with
    | some i => rw [find_existing hash t key nkey mem length i hs hc]; exact h
    | none =>
      by_cases hm : mem.calloc_ok = false ∨ mem.malloc_ok = false
      · rw [find_alloc_fails hash t key nkey mem length hs hc hm]; exact h
      · rw [find_created hash t key nkey mem length hs hc (by simpa using fun x => hm (Or.inl x))
          (by simpa using fun x => hm (Or.inr x))]
        obtain ⟨h1, h2, h3⟩ := h
        by_cases hh : hash (key.take length) % PREFIX_HASH_SIZE t < t.prefix_stats.length
        · obtain ⟨l1, l2, e1, e2⟩ := flatten_set_cons t.prefix_stats _
            (new_record key length) hh
          have hs := cstr_length_le (strncpy key length)
          rw [strncpy_length] at hs
          simp only [counts_cover, all_records] at h1 h2 h3 ⊢
          rw [e2]
          rw [e1] at h1 h2 h3
          simp only [List.length_append, List.length_cons, prefix_bytes_append,
            prefix_bytes_cons, new_record] at h1 h2 ⊢
          refine ⟨by omega, by omega, ?_⟩
          intro r hr
          rcases List.mem_append.1 hr with hr | hr
          · exact h3 r (List.mem_append_left _ hr)
          · rcases List.mem_cons.1 hr with hr | hr
            · subst hr
              simp [counters_fit]
            · exact h3 r (List.mem_append_right _ hr)
        · simp only [counts_cover, all_records] at h1 h2 h3 ⊢
          rw [List.set_eq_of_length_le (by omega)]
          exact ⟨by omega, by omega, h3⟩

theorem counts_cover_update (f : PREFIX_STATS → PREFIX_STATS) (t : Table) (p : Nat × Nat)
    (hp : ∀ r, (f r).prefix_ = r.prefix_) (hc : ∀ r, counters_fit r → counters_fit (f r))
    (h : counts_cover t) : counts_cover (update_record f t p) := by
  obtain ⟨h1, h2, h3⟩ := h
  simp only [counts_cover, all_records, update_record] at h1 h2 h3 ⊢
  rcases flatten_modify_at f p.1 p.2 t.prefix_stats with e | ⟨l1, r, l2, e1, e2⟩
  · rw [e]; exact ⟨h1, h2, h3⟩
  · rw [e2]
    rw [e1] at h1 h2 h3
    simp only [List.length_append, List.length_cons, prefix_bytes_append,
      prefix_bytes_cons, hp] at h1 h2 ⊢
    refine ⟨h1, h2, ?_⟩
    intro x hx
    rcases List.mem_append.1 hx with hx | hx
    · exact h3 x (List.mem_append_left _ hx)
    · rcases List.mem_cons.1 hx with hx | hx
      · subst hx
        exact hc r (h3 r (by simp))
      · exact h3 x (List.mem_append_right _ (List.mem_cons_of_mem _ hx))

theorem bump_get_prefix_eq (is_hit : Bool) (r : PREFIX_STATS) :
    (bump_get is_hit r).prefix_ = r.prefix_ := by
  cases is_hit <;> rfl

theorem bump_get_fit (is_hit : Bool) (r : PREFIX_STATS) (h : counters_fit r) :
    counters_fit (bump_get is_hit r) := by
  obtain ⟨hg, hs, hd, hh⟩ := h
  cases is_hit
  · exact ⟨incr64_lt _, hs, hd, hh⟩
  · exact ⟨incr64_lt _, hs, hd, incr64_lt _⟩

theorem counts_cover_step (hash : List Char → Nat) (t : Table) (op : Op)
    (h : counts_cover t) : counts_cover (step hash t op) := by
  cases op with
  | init d => exact counts_cover_init d t
  | clear => exact counts_cover_clear t
  | record_get key nkey is_hit mem =>
    have hf := counts_cover_find hash t key nkey mem h
    simp only [step, stats_prefix_record_get]
    split
    · rename_i t1 p e
      rw [e] at hf
      exact counts_cover_update _ t1 p (bump_get_prefix_eq is_hit) (bump_get_fit is_hit) hf
    · rename_i t1 e
      rw [e] at hf
      exact hf
  | record_delete key nkey mem =>
    have hf := counts_cover_find hash t key nkey mem h
    simp only [step, stats_prefix_record_delete]
    split
    · rename_i t1 p e
      rw [e] at hf
      exact counts_cover_update _ t1 p (fun _ => rfl)
        (fun r hr => ⟨hr.1, hr.2.1, incr64_lt _, hr.2.2.2⟩) hf
    · rename_i t1 e
      rw [e] at hf
      exact hf
  | record_set key nkey mem =>
    have hf := counts_cover_find hash t key nkey mem h
    simp only [step, stats_prefix_record_set]
    split
    · rename_i t1 p e
      rw [e] at hf
      exact counts_cover_update _ t1 p (fun _ => rfl)
        (fun r hr => ⟨hr.1, incr64_lt _, hr.2.2.1, hr.2.2.2⟩) hf
    · rename_i t1 e
      rw [e] at hf
      exact hf

theorem counts_cover_run (hash : List Char → Nat) (ops : List Op) (t : Table)
    (h : counts_cover t) : counts_cover (run hash t ops) := by
  induction ops generalizing t with
  | nil => exact h
  | cons op rest ih => exact ih _ (counts_cover_step hash t op h)



/-! ## The scan for the delimiter -/

theorem scan_key_some_iff (d : Char) (key : List Char) (fuel length p : Nat) :
    scan_key d key fuel length = some p ↔
      length ≤ p ∧ p < length + fuel ∧ byte_at key p = d ∧ byte_at key p ≠ NUL ∧
        ∀ i, length ≤ i → i < p → byte_at key i ≠ NUL ∧ byte_at key i ≠ d := by
  induction fuel generalizing length with
  | zero =>
    simp only [scan_key]
    constructor
    · intro h; cases h
    · rintro ⟨h1, h2, _⟩; omega
  | succ fuel ih =>
    simp only [scan_key]
    by_cases hn : byte_at key length = NUL
    · rw [if_pos hn]
      constructor
      · intro h; cases h
      · rintro ⟨h1, _, _, h4, h5⟩
        rcases Nat.eq_or_lt_of_le h1 with e | l
        · subst e; exact absurd hn h4
        · exact absurd hn (h5 length (Nat.le_refl _) l).1
    · rw [if_neg hn]
      by_cases hd : byte_at key length = d
      · rw [if_pos hd]
        constructor
        · intro h
          cases h
          exact ⟨Nat.le_refl _, by omega, hd, hn, fun i h1 h2 => by omega⟩
        · rintro ⟨h1, _, _, _, h5⟩
          rcases Nat.eq_or_lt_of_le h1 with e | l
          · rw [e]
          · exact absurd hd (h5 length (Nat.le_refl _) l).2
      · rw [if_neg hd, ih]
        constructor
        · rintro ⟨h1, h2, h3, h4, h5⟩
          refine ⟨by omega, by omega, h3, h4, ?_⟩
          intro i hi1 hi2
          rcases Nat.eq_or_lt_of_le hi1 with e | l
          · subst e; exact ⟨hn, hd⟩
          · exact h5 i l hi2
        · rintro ⟨h1, h2, h3, h4, h5⟩
          have hne : length ≠ p := by
            intro e; subst e; exact hd h3
          exact ⟨by omega, by omega, h3, h4, fun i hi1 hi2 => h5 i (by omega) hi2⟩

theorem byte_at_take (key : List Char) (n i : Nat) (h : i < n) :
    byte_at (key.take n) i = byte_at key i := by
  simp [byte_at, List.getD_eq_getElem?_getD, List.getElem?_take, h]

theorem byte_at_append_left (l1 l2 : List Char) (i : Nat) (h : i < l1.length) :
    byte_at (l1 ++ l2) i = l1[i] := by
  simp [byte_at, List.getD_eq_getElem?_getD, List.getElem?_append_left h, h]

theorem byte_at_append_length (l1 : List Char) (c : Char) (l2 : List Char) :
    byte_at (l1 ++ c :: l2) l1.length = c := by
  induction l1 with
  | nil => rfl
  | cons a as ih => simpa [byte_at] using ih

/-- A key that starts with `P` followed by the delimiter is scanned up to `P.length`. -/
theorem scan_prefixed_key (d : Char) (P key : List Char) (nkey : Nat)
    (hd : d ≠ NUL) (hP0 : NUL ∉ P) (hPd : d ∉ P)
    (hkey : key.take (P.length + 1) = P ++ [d]) (hlen : P.length < nkey) :
    scan_key d key nkey 0 = some P.length := by
  have hlast : byte_at key P.length = d := by
    rw [← byte_at_take key (P.length + 1) P.length (by omega), hkey]
    exact byte_at_append_length P d []
  have hin : ∀ i, i < P.length → byte_at key i ∈ P := by
    intro i hi
    rw [← byte_at_take key (P.length + 1) i (by omega), hkey, byte_at_append_left P [d] i hi]
    exact List.getElem_mem hi
  rw [scan_key_some_iff]
  refine ⟨Nat.zero_le _, by omega, hlast, by rw [hlast]; exact hd, ?_⟩
  intro i _ hi
  exact ⟨fun e => hP0 (e ▸ hin i hi), fun e => hPd (e ▸ hin i hi)⟩

theorem take_of_take_succ (P key : List Char) (d : Char)
    (hkey : key.take (P.length + 1) = P ++ [d]) : key.take P.length = P := by
  have h := congrArg (List.take P.length) hkey
  simpa [List.take_take] using h

theorem cstr_append_of_not_mem (P rest : List Char) (h : NUL ∉ P) :
    cstr (P ++ rest) = P ++ cstr rest := by
  induction P with
  | nil => rfl
  | cons c cs ih =>
    have hc : c ≠ NUL := fun e => h (by simp [e])
    have hcs : NUL ∉ cs := fun e => h (by simp [e])
    have e := ih hcs
    simp only [cstr, List.cons_append, List.takeWhile_cons] at e ⊢
    rw [if_pos (by simpa using hc), e]

/-- The prefix copied out of such a key is `P` itself. -/
theorem strncpy_prefixed_key (P key : List Char) (d : Char) (hP0 : NUL ∉ P)
    (hkey : key.take (P.length + 1) = P ++ [d]) : strncpy key P.length = P := by
  have h1 := take_of_take_succ P key d hkey
  have h2 : key = P ++ key.drop P.length := by
    conv_lhs => rw [← List.take_append_drop P.length key, h1]
  unfold strncpy
  rw [h2, cstr_append_of_not_mem P _ hP0, List.append_assoc, List.take_left]

theorem strncmp_eq_of_take (n : Nat) (s1 s2 : List Char) (h : s1.take n = s2.take n) :
    strncmp_eq s1 s2 n = true := by
  induction n generalizing s1 s2 with
  | zero => rfl
  | succ n ih =>
    cases s1 with
    | nil =>
      cases s2 with
      | nil => simp [strncmp_eq, byte_at]
      | cons b bs => simp at h
    | cons a as =>
      cases s2 with
      | nil => simp at h
      | cons b bs =>
        simp only [List.take_succ_cons, List.cons.injEq] at h
        obtain ⟨hab, ht⟩ := h
        subst hab
        simp only [strncmp_eq, byte_at, List.getD_cons_zero, ne_eq, not_true_eq_false,
          if_false, List.tail_cons]
        split
        · rfl
        · exact ih as bs ht

theorem getD_set_replicate (n h : Nat) (c : List PREFIX_STATS) (hh : h < n) :
    ((List.replicate n ([] : List PREFIX_STATS)).set h c).getD h [] = c := by
  simp [List.getD_eq_getElem?_getD, hh]

theorem flatten_set_replicate (n h : Nat) (c : List PREFIX_STATS) (hh : h < n) :
    ((List.replicate n ([] : List PREFIX_STATS)).set h c).flatten = c := by
  induction n generalizing h with
  | zero => omega
  | succ n ih =>
    cases h with
    | zero => simp [List.replicate_succ, flatten_replicate_nil]
    | succ h => simp [List.replicate_succ, ih h (by omega)]

theorem modify_at_set {α : Type} (g : α → α) (l : List α) (h : Nat) (x : α)
    (hh : h < l.length) : modify_at g h (l.set h x) = l.set h (g x) := by
  induction l generalizing h with
  | nil => simp at hh
  | cons a as ih =>
    cases h with
    | zero => rfl
    | succ h => simp [modify_at, ih h (by simpa using hh)]

theorem record_get_of_find (hash : List Char → Nat) (t : Table) (key : List Char)
    (nkey : Nat) (is_hit : Bool) (mem : Alloc) (p : Nat × Nat)
    (h : (stats_prefix_find hash t key nkey mem).2 = some p) :
    stats_prefix_record_get hash t key nkey is_hit mem =
      update_record (bump_get is_hit) (stats_prefix_find hash t key nkey mem).1 p := by
  unfold stats_prefix_record_get
  split
  · rename_i t1 q e
    rw [e] at h ⊢
    cases h
    rfl
  · rename_i t1 e
    rw [e] at h
    cases h

theorem record_delete_of_find (hash : List Char → Nat) (t : Table) (key : List Char)
    (nkey : Nat) (mem : Alloc) (p : Nat × Nat)
    (h : (stats_prefix_find hash t key nkey mem).2 = some p) :
    stats_prefix_record_delete hash t key nkey mem =
      update_record (fun r => { r with num_deletes := incr64 r.num_deletes })
        (stats_prefix_find hash t key nkey mem).1 p := by
  unfold stats_prefix_record_delete
  split
  · rename_i t1 q e
    rw [e] at h ⊢
    cases h
    rfl
  · rename_i t1 e
    rw [e] at h
    cases h

theorem record_set_of_find (hash : List Char → Nat) (t : Table) (key : List Char)
    (nkey : Nat) (mem : Alloc) (p : Nat × Nat)
    (h : (stats_prefix_find hash t key nkey mem).2 = some p) :
    stats_prefix_record_set hash t key nkey mem =
      update_record (fun r => { r with num_sets := incr64 r.num_sets })
        (stats_prefix_find hash t key nkey mem).1 p := by
  unfold stats_prefix_record_set
  split
  · rename_i t1 q e
    rw [e] at h ⊢
    cases h
    rfl
  · rename_i t1 e
    rw [e] at h
    cases h

theorem apply_op_prefix_eq (op : Op) (r : PREFIX_STATS) : (apply_op op r).prefix_ = r.prefix_ := by
  cases op <;> simp [apply_op, bump_get_prefix_eq]

theorem run_cons (hash : List Char → Nat) (t : Table) (op : Op) (ops : List Op) :
    run hash t (op :: ops) = run hash (step hash t op) ops := rfl

theorem cstr_of_not_mem (P : List Char) (h : NUL ∉ P) : cstr P = P := by
  have := cstr_append_of_not_mem P [] h
  simpa [cstr] using this

/-! ## C1: the report of a table with a single prefix -/

theorem scan_key_none_iff (d : Char) (key : List Char) (nkey : Nat) :
    scan_key d key nkey 0 = none ↔
      ¬ ∃ p, p < nkey ∧ byte_at key p = d ∧ ∀ i, i ≤ p → byte_at key i ≠ NUL := by
  constructor
  · rintro hnone ⟨p, hp, hpd, hnul⟩
    have hex : ∃ q, byte_at key q = d := ⟨p, hpd⟩
    have hq := Nat.find_spec hex
    have hle : Nat.find hex ≤ p := Nat.find_min' hex hpd
    have hsome : scan_key d key nkey 0 = some (Nat.find hex) := by
      rw [scan_key_some_iff]
      refine ⟨Nat.zero_le _, by omega, hq, hnul _ hle, ?_⟩
      intro i _ hi
      exact ⟨hnul i (by omega), Nat.find_min hex hi⟩
    rw [hnone] at hsome
    cases hsome
  · intro h
    cases hs : scan_key d key nkey 0 with
    | none => rfl
    | some p =>
      exfalso
      rw [scan_key_some_iff] at hs
      obtain ⟨_, h2, h3, h4, h5⟩ := hs
      refine h ⟨p, by omega, h3, ?_⟩
      intro i hi
      rcases Nat.eq_or_lt_of_le hi with e | l
      · rw [e]; exact h4
      · exact (h5 i (Nat.zero_le _) l).1

theorem find_null_iff_scan (hash : List Char → Nat) (t : Table) (key : List Char)
    (nkey : Nat) :
    (stats_prefix_find hash t key nkey Alloc.success).2 = none ↔
      scan_key t.prefix_delimiter key nkey 0 = none := by
  constructor
  · intro h
    cases hs : scan_key t.prefix_delimiter key nkey 0 with
    | none => rfl
    | some length =>
      exfalso
      cases hc : find_in_chain key length
          (t.prefix_stats.getD (hash (key.take length) % PREFIX_HASH_SIZE t) []) with
      | some i =>
        rw [find_existing hash t key nkey _ length i hs hc] at h
        cases h
      | none =>
        rw [find_created hash t key nkey _ length hs hc rfl rfl] at h
        cases h
  · intro h
    rw [find_untracked hash t key nkey _ h]

/-- C4: with both allocations succeeding, `stats_prefix_find` returns NULL if and only
if the delimiter does not occur in the key before the earlier of position `nkey` and
the first NUL byte; a delimiter at an index at or past `nkey`, or behind a NUL byte,
does not make the key tracked. -/
theorem find_null_iff (hash : List Char → Nat) (t : Table) (key : List Char) (nkey : Nat) :
    (stats_prefix_find hash t key nkey Alloc.success).2 = none ↔
      ¬ ∃ p, p < nkey ∧ byte_at key p = t.prefix_delimiter ∧
        ∀ i, i ≤ p → byte_at key i ≠ NUL := by
  rw [find_null_iff_scan, scan_key_none_iff]

theorem dump_of_no_records (t : Table) (h : all_records t = []) :
    stats_prefix_dump t true = DumpResult.ok ("END\r\n".toList ++ [NUL]) 5 := by
  have hc : counts_cover t := by
    simp [counts_cover, h, prefix_bytes]
  rw [dump_of_cover t hc]
  simp [report_lines, h]

theorem chain_lines_take_le (rs : List PREFIX_STATS) (k : Nat) :
    (chain_lines (rs.take k)).length ≤ (chain_lines rs).length := by
  conv_rhs => rw [← List.take_append_drop k rs, chain_lines_append, List.length_append]
  omega

theorem chain_lines_length (rs : List PREFIX_STATS) :
    (chain_lines rs).length = (rs.map (fun r => (format_line r).length)).sum := by
  induction rs with
  | nil => rfl
  | cons r rest ih => simp [chain_lines_cons, ih]

/-- Without wrap-around of the `int` variables: after any sequence of `init`, `clear`,
`record_get`, `record_set` and `record_delete` calls from process start, with any hash
function and any allocation outcomes, the dump stays inside its buffer of
`size = len(format) + total_prefix_size + num_prefixes * (len(format) - 2 + 4 * (20 - 4)) + 6`
bytes: the running total after every line is below `size`, the six bytes of the final
`END` fit as well, so the assertion holds, no line is cut and the dump returns all lines. -/
theorem dump_within_buffer (hash : List Char → Nat) (n : Nat) (ops : List Op) :
    dump_size (run hash (process_start n) ops) =
      format.length + (run hash (process_start n) ops).total_prefix_size +
        (run hash (process_start n) ops).num_prefixes * (format.length - 2 + 4 * (20 - 4)) + 6 ∧
    (∀ k, (chain_lines ((all_records (run hash (process_start n) ops)).take k)).length <
      dump_size (run hash (process_start n) ops)) ∧
    (chain_lines (all_records (run hash (process_start n) ops))).length + 6 ≤
      dump_size (run hash (process_start n) ops) ∧
    stats_prefix_dump (run hash (process_start n) ops) true =
      DumpResult.ok
        (chain_lines (all_records (run hash (process_start n) ops)) ++ "END\r\n".toList ++ [NUL])
        ((chain_lines (all_records (run hash (process_start n) ops))).length + 5) := by
  have hc := counts_cover_run hash ops _ (counts_cover_process_start n)
  have hb := report_lines_bound _ hc
  have e : report_lines (run hash (process_start n) ops) =
      chain_lines (all_records (run hash (process_start n) ops)) := rfl
  rw [e] at hb
  refine ⟨rfl, ?_, by omega, ?_⟩
  · intro k
    have := chain_lines_take_le (all_records (run hash (process_start n) ops)) k
    omega
  · rw [dump_of_cover _ hc, e]

/-- C8: for every table state, after `clear` every bucket is empty, `num_prefixes` and
`total_prefix_size` are zero, the delimiter and the number of buckets are unchanged,
and a following `dump` returns exactly `END` with reported length 5. -/
theorem clear_resets (t : Table) :
    (∀ chain ∈ (stats_prefix_clear t).prefix_stats, chain = []) ∧
    (stats_prefix_clear t).prefix_stats.length = t.prefix_stats.length ∧
    (stats_prefix_clear t).num_prefixes = 0 ∧
    (stats_prefix_clear t).total_prefix_size = 0 ∧
    (stats_prefix_clear t).prefix_delimiter = t.prefix_delimiter ∧
    stats_prefix_dump (stats_prefix_clear t) true =
      DumpResult.ok ("END\r\n".toList ++ [NUL]) 5 := by
  refine ⟨?_, by simp [stats_prefix_clear], rfl, rfl, rfl, ?_⟩
  · intro chain hchain
    simp only [stats_prefix_clear, List.mem_map] at hchain
    obtain ⟨_, _, e⟩ := hchain
    exact e.symm
  · exact dump_of_no_records _ (by simp [all_records, stats_prefix_clear, flatten_map_nil])

/-- Without wrap-around of the `int` variables: for every table state whose
`num_prefixes` and `total_prefix_size` are at least
the number of records and the sum of their prefix lengths (the counters being
`uint64_t` values), `dump` returns the concatenation, over the buckets in index order
and each chain from head to tail, of one line
`PREFIX <prefix> get <num_gets> hit <num_hits> set <num_sets> del <num_deletes>` per
record, followed by `END`; there are as many lines as records. -/
theorem dump_text (t : Table)
    (hcount : (t.prefix_stats.map List.length).sum ≤ t.num_prefixes)
    (hbytes : (t.prefix_stats.flatten.map (fun r => (cstr r.prefix_).length)).sum ≤
      t.total_prefix_size)
    (hfit : ∀ r ∈ t.prefix_stats.flatten, counters_fit r) :
    stats_prefix_dump t true =
      DumpResult.ok
        ((t.prefix_stats.flatten.map (fun r =>
            "PREFIX ".toList ++ cstr r.prefix_ ++ " get ".toList ++ dec r.num_gets ++
              " hit ".toList ++ dec r.num_hits ++ " set ".toList ++ dec r.num_sets ++
              " del ".toList ++ dec r.num_deletes ++ "\r\n".toList)).flatten ++
          "END\r\n".toList ++ [NUL])
        ((t.prefix_stats.flatten.map (fun r =>
            "PREFIX ".toList ++ cstr r.prefix_ ++ " get ".toList ++ dec r.num_gets ++
              " hit ".toList ++ dec r.num_hits ++ " set ".toList ++ dec r.num_sets ++
              " del ".toList ++ dec r.num_deletes ++ "\r\n".toList)).flatten.length + 5) ∧
    (t.prefix_stats.flatten.map (fun r =>
        "PREFIX ".toList ++ cstr r.prefix_ ++ " get ".toList ++ dec r.num_gets ++
          " hit ".toList ++ dec r.num_hits ++ " set ".toList ++ dec r.num_sets ++
          " del ".toList ++ dec r.num_deletes ++ "\r\n".toList)).length =
      (t.prefix_stats.map List.length).sum := by
  have hc : counts_cover t := by
    refine ⟨?_, hbytes, hfit⟩
    simpa [all_records, List.length_flatten] using hcount
  refine ⟨dump_of_cover t hc, ?_⟩
  rw [List.length_map, List.length_flatten]

/-- The dump of a table of three buckets holding three records, two of them chained. -/
theorem dump_text_witness :
    stats_prefix_dump
      { prefix_stats :=
          [[{ prefix_ := "b".toList, prefix_len := 1, num_gets := 10, num_sets := 0,
              num_deletes := 3, num_hits := 7 },
            { prefix_ := "user".toList, prefix_len := 4, num_gets := 2, num_sets := 1,
              num_deletes := 0, num_hits := 1 }],
           [],
           [{ prefix_ := "img".toList, prefix_len := 3, num_gets := 0, num_sets := 5,
              num_deletes := 0, num_hits := 0 }]],
        prefix_delimiter := '[', num_prefixes := 3, total_prefix_size := 8 } true =
      DumpResult.ok
        ("PREFIX b get 10 hit 7 set 0 del 3\r\nPREFIX user get 2 hit 1 set 1 del 0\r\n".toList ++
          "PREFIX img get 0 hit 0 set 5 del 0\r\nEND\r\n".toList ++ [NUL]) 113 :=
  (dump_text _ (by decide) (by decide) (by decide)).1

/-- Without wrap-around of the `int` variables: in every state reachable from process
start the length `dump` reports is the
number of bytes of the report text, the sum of the lengths of all lines plus 5 for
`END`, without the terminating NUL byte and below the buffer size. -/
theorem dump_length_exact (hash : List Char → Nat) (n : Nat) (ops : List Op) :
    ∃ text : List Char,
      text = report_lines (run hash (process_start n) ops) ++ "END\r\n".toList ∧
      stats_prefix_dump (run hash (process_start n) ops) true =
        DumpResult.ok (text ++ [NUL]) text.length ∧
      text.length =
        ((all_records (run hash (process_start n) ops)).map
          (fun r => (format_line r).length)).sum + 5 ∧
      text.length < dump_size (run hash (process_start n) ops) := by
  have hc := counts_cover_run hash ops _ (counts_cover_process_start n)
  have hb := report_lines_bound _ hc
  refine ⟨_, rfl, ?_, ?_, ?_⟩
  · rw [dump_of_cover _ hc]
    simp
  · have e : report_lines (run hash (process_start n) ops) =
        chain_lines (all_records (run hash (process_start n) ops)) := rfl
    rw [List.length_append, e, chain_lines_length]
    rfl
  · rw [List.length_append]
    have : ("END\r\n".toList).length = 5 := rfl
    omega

/-! ## C2, C3 and C7: evaluations of the code -/

/-- C2 fails on the code: the chain walk compares with `strncmp` over the length of
the key prefix only and never looks at `prefix_len`.  With the record of `user` in the
bucket, the key `us[1` (delimiter at position 2) resolves to the record whose stored
prefix is `user`, of length 4. -/
theorem find_returns_longer_prefix :
    scan_key '[' "us[1".toList 4 0 = some 2 ∧
    (stats_prefix_find colliding_hash
        (run colliding_hash (stats_prefix_init '[' (process_start 16))
          [Op.record_get "user[1".toList 6 true Alloc.success])
        "us[1".toList 4 Alloc.success).2 = some (7, 0) ∧
    deref
      (stats_prefix_find colliding_hash
        (run colliding_hash (stats_prefix_init '[' (process_start 16))
          [Op.record_get "user[1".toList 6 true Alloc.success])
        "us[1".toList 4 Alloc.success).1 (7, 0) =
      some { prefix_ := "user".toList, prefix_len := 4, num_gets := 1, num_sets := 0,
             num_deletes := 0, num_hits := 1 } := by
  decide

/-- C3 fails on the code: the keys `a[x` and `a[y` have the same prefix `a`, yet once
the record of `ab` has been put in front of the chain the second key resolves to the
record of `ab`; the record the first key resolved to is the second of the chain, and
the dump after a `record_get` on each of the three keys counts two gets for `ab`. -/
theorem same_prefix_other_record :
    deref
      (stats_prefix_find colliding_hash (stats_prefix_init '[' (process_start 16))
        "a[x".toList 3 Alloc.success).1 (7, 0) = some (fresh_record "a".toList) ∧
    (stats_prefix_find colliding_hash
        (run colliding_hash (stats_prefix_init '[' (process_start 16))
          [Op.record_get "a[x".toList 3 false Alloc.success,
           Op.record_get "ab[z".toList 4 false Alloc.success])
        "a[y".toList 3 Alloc.success).2 = some (7, 0) ∧
    (run colliding_hash (stats_prefix_init '[' (process_start 16))
        [Op.record_get "a[x".toList 3 false Alloc.success,
         Op.record_get "ab[z".toList 4 false Alloc.success]).prefix_stats.getD 7 [] =
      [{ prefix_ := "ab".toList, prefix_len := 2, num_gets := 1, num_sets := 0,
         num_deletes := 0, num_hits := 0 },
       { prefix_ := "a".toList, prefix_len := 1, num_gets := 1, num_sets := 0,
         num_deletes := 0, num_hits := 0 }] ∧
    stats_prefix_dump
      (run colliding_hash (stats_prefix_init '[' (process_start 16))
        [Op.record_get "a[x".toList 3 false Alloc.success,
         Op.record_get "ab[z".toList 4 false Alloc.success,
         Op.record_get "a[y".toList 3 false Alloc.success]) true =
      DumpResult.ok
        ("PREFIX ab get 2 hit 0 set 0 del 0\r\nPREFIX a get 1 hit 0 set 0 del 0\r\nEND\r\n".toList
          ++ [NUL]) 74 := by
  decide

/-- C7 fails on the code: `stats_prefix_init` stores the delimiter and zeroes the
buckets but leaves `num_prefixes` and `total_prefix_size` as they were.  After a
`record_get` on `user[1` a second `init` yields a table without records whose
counters still read 1 and 4. -/
theorem init_keeps_counters :
    (stats_prefix_init ':'
      (run colliding_hash (stats_prefix_init '[' (process_start 16))
        [Op.record_get "user[1".toList 6 true Alloc.success])).num_prefixes = 1 ∧
    (stats_prefix_init ':'
      (run colliding_hash (stats_prefix_init '[' (process_start 16))
        [Op.record_get "user[1".toList 6 true Alloc.success])).total_prefix_size = 4 ∧
    (stats_prefix_init ':'
      (run colliding_hash (stats_prefix_init '[' (process_start 16))
        [Op.record_get "user[1".toList 6 true Alloc.success])).prefix_delimiter = ':' ∧
    all_records (stats_prefix_init ':'
      (run colliding_hash (stats_prefix_init '[' (process_start 16))
        [Op.record_get "user[1".toList 6 true Alloc.success])) = [] := by
  decide

/-! ## Pointers into the table -/

theorem length_modify_at {α : Type} (f : α → α) (n : Nat) (l : List α) :
    (modify_at f n l).length = l.length := by
  induction l generalizing n with
  | nil => cases n <;> rfl
  | cons a as ih =>
    cases n with
    | zero => rfl
    | succ n => simp [modify_at, ih n]

theorem getElem?_modify_at {α : Type} (f : α → α) (i j : Nat) (xs : List α) :
    (modify_at f i xs)[j]? = if j = i then (xs[j]?).map f else xs[j]? := by
  induction xs generalizing i j with
  | nil => cases i <;> simp [modify_at]
  | cons a as ih =>
    cases i with
    | zero =>
      cases j with
      | zero => simp [modify_at]
      | succ j => simp [modify_at]
    | succ i =>
      cases j with
      | zero => simp [modify_at]
      | succ j => simp [modify_at, ih i j]

theorem getD_modify_at (g : List PREFIX_STATS → List PREFIX_STATS) (hg : g [] = [])
    (b i : Nat) (l : List (List PREFIX_STATS)) :
    (modify_at g b l).getD i [] = if i = b then g (l.getD i []) else l.getD i [] := by
  induction l generalizing b i with
  | nil => cases b <;> simp [modify_at, hg]
  | cons a as ih =>
    cases b with
    | zero =>
      cases i with
      | zero => simp [modify_at]
      | succ i => simp [modify_at]
    | succ b =>
      cases i with
      | zero => simp [modify_at]
      | succ i => simpa [modify_at] using ih b i

theorem modify_at_nil {α : Type} (f : α → α) (i : Nat) : modify_at f i ([] : List α) = [] := by
  cases i <;> rfl

/-- A write through the pointer `p` changes the record `p` points to and no other. -/
theorem deref_update (f : PREFIX_STATS → PREFIX_STATS) (t : Table) (p q : Nat × Nat) :
    deref (update_record f t p) q = if q = p then (deref t p).map f else deref t q := by
  obtain ⟨b, i⟩ := p
  obtain ⟨c, j⟩ := q
  simp only [deref, update_record]
  rw [getD_modify_at _ (modify_at_nil f i)]
  by_cases hb : c = b
  · subst hb
    rw [if_pos rfl, getElem?_modify_at]
    by_cases hj : j = i
    · subst hj; simp
    · simp [hj]
  · rw [if_neg hb, if_neg (by simp [hb])]

/-- In dump order a write through a valid pointer replaces exactly the record it points to. -/
theorem flatten_modify_at_deref (f : PREFIX_STATS → PREFIX_STATS) (b i : Nat)
    (l : List (List PREFIX_STATS)) (r : PREFIX_STATS) (h : (l.getD b [])[i]? = some r) :
    ∃ l1 l2, l.flatten = l1 ++ r :: l2 ∧
      (modify_at (modify_at f i) b l).flatten = l1 ++ f r :: l2 := by
  induction l generalizing b with
  | nil => simp at h
  | cons c cs ih =>
    cases b with
    | zero =>
      simp only [List.getD_cons_zero] at h
      have hchain : ∀ (ys : List PREFIX_STATS) (i : Nat), ys[i]? = some r →
          ∃ l1 l2, ys = l1 ++ r :: l2 ∧ modify_at f i ys = l1 ++ f r :: l2 := by
        intro ys
        induction ys with
        | nil => intro i hi; simp at hi
        | cons x xs ihc =>
          intro i hi
          cases i with
          | zero =>
            simp only [List.getElem?_cons_zero, Option.some.injEq] at hi
            subst hi
            exact ⟨[], xs, rfl, rfl⟩
          | succ i =>
            simp only [List.getElem?_cons_succ] at hi
            obtain ⟨l1, l2, e1, e2⟩ := ihc i hi
            exact ⟨x :: l1, l2, by simp [e1], by simp [modify_at, e2]⟩
      obtain ⟨l1, l2, e1, e2⟩ := hchain c i h
      exact ⟨l1, l2 ++ cs.flatten, by simp [e1], by simp [modify_at, e2]⟩
    | succ b =>
      simp only [List.getD_cons_succ] at h
      obtain ⟨l1, l2, e1, e2⟩ := ih b h
      exact ⟨c ++ l1, l2, by simp [e1], by simp [modify_at, e2]⟩

theorem update_of_null_deref (f : PREFIX_STATS → PREFIX_STATS) (t : Table) (p : Nat × Nat)
    (h : deref t p = none) : update_record f t p = t := by
  obtain ⟨b, i⟩ := p
  simp only [deref] at h
  have hchain : ∀ (ys : List PREFIX_STATS) (i : Nat), ys[i]? = none → modify_at f i ys = ys := by
    intro ys
    induction ys with
    | nil => intro i _; exact modify_at_nil f i
    | cons x xs ihc =>
      intro i hi
      cases i with
      | zero => simp at hi
      | succ i =>
        simp only [List.getElem?_cons_succ] at hi
        simp [modify_at, ihc i hi]
  have hl : ∀ (l : List (List PREFIX_STATS)) (b : Nat), (l.getD b [])[i]? = none →
      modify_at (modify_at f i) b l = l := by
    intro l
    induction l with
    | nil => intro b _; exact modify_at_nil _ b
    | cons c cs ihl =>
      intro b hb
      cases b with
      | zero =>
        simp only [List.getD_cons_zero] at hb
        simp [modify_at, hchain c i hb]
      | succ b =>
        simp only [List.getD_cons_succ] at hb
        simp [modify_at, ihl b hb]
  simp only [update_record, hl t.prefix_stats b h]

theorem find_in_chain_lt (key : List Char) (length : Nat) (c : List PREFIX_STATS) (i : Nat)
    (h : find_in_chain key length c = some i) :
    ∃ r, (c)[i]? = some r ∧ strncmp_eq r.prefix_ key length = true := by
  induction c generalizing i with
  | nil => simp [find_in_chain] at h
  | cons x xs ih =>
    simp only [find_in_chain] at h
    by_cases hx : strncmp_eq x.prefix_ key length = true
    · rw [if_pos hx] at h
      cases h
      exact ⟨x, by simp, hx⟩
    · rw [if_neg hx] at h
      cases hf : find_in_chain key length xs with
      | none => rw [hf] at h; cases h
      | some j =>
        rw [hf] at h
        simp only [Option.map_some', Option.some.injEq] at h
        subst h
        obtain ⟨r, h1, h2⟩ := ih j hf
        exact ⟨r, by simpa using h1, h2⟩

theorem find_in_chain_none (key : List Char) (length : Nat) (c : List PREFIX_STATS)
    (h : find_in_chain key length c = none) :
    ∀ r ∈ c, strncmp_eq r.prefix_ key length = false := by
  induction c with
  | nil => intro r hr; simp at hr
  | cons x xs ih =>
    simp only [find_in_chain] at h
    by_cases hx : strncmp_eq x.prefix_ key length = true
    · rw [if_pos hx] at h; cases h
    · rw [if_neg hx] at h
      have hn : find_in_chain key length xs = none := by
        cases hf : find_in_chain key length xs with
        | none => rfl
        | some j => rw [hf] at h; cases h
      intro r hr
      rcases List.mem_cons.1 hr with e | hr
      · subst e; simpa using hx
      · exact ih hn r hr

theorem find_created_table (hash : List Char → Nat) (t : Table) (key : List Char) (nkey : Nat)
    (mem : Alloc) (length : Nat) (hs : scan_key t.prefix_delimiter key nkey 0 = some length)
    (hc : find_in_chain key length (t.prefix_stats.getD (bucket_of hash t key length) []) = none)
    (h1 : mem.calloc_ok = true) (h2 : mem.malloc_ok = true) :
    stats_prefix_find hash t key nkey mem =
      (table_with_new hash t key length, some (bucket_of hash t key length, 0)) :=
  find_created hash t key nkey mem length hs hc h1 h2

/-- The outcomes of `stats_prefix_find`. -/
theorem find_cases (hash : List Char → Nat) (t : Table) (key : List Char) (nkey : Nat)
    (mem : Alloc) :
    stats_prefix_find hash t key nkey mem = (t, none) ∨
    (∃ length i, scan_key t.prefix_delimiter key nkey 0 = some length ∧
      find_in_chain key length (t.prefix_stats.getD (bucket_of hash t key length) []) = some i ∧
      stats_prefix_find hash t key nkey mem = (t, some (bucket_of hash t key length, i))) ∨
    (∃ length, scan_key t.prefix_delimiter key nkey 0 = some length ∧
      find_in_chain key length (t.prefix_stats.getD (bucket_of hash t key length) []) = none ∧
      mem.calloc_ok = true ∧ mem.malloc_ok = true ∧
      stats_prefix_find hash t key nkey mem =
        (table_with_new hash t key length, some (bucket_of hash t key length, 0))) := by
  cases hs : scan_key t.prefix_delimiter key nkey 0 with
  | none => exact Or.inl (find_untracked hash t key nkey mem hs)
  | some length =>
    cases hc : find_in_chain key length
        (t.prefix_stats.getD (bucket_of hash t key length) []) with
    | some i =>
      exact Or.inr (Or.inl ⟨length, i, rfl, hc, find_existing hash t key nkey mem length i hs hc⟩)
    | none =>
      by_cases hm : mem.calloc_ok = false ∨ mem.malloc_ok = false
      · exact Or.inl (find_alloc_fails hash t key nkey mem length hs hc hm)
      · have h1 : mem.calloc_ok = true := by simpa using fun x => hm (Or.inl x)
        have h2 : mem.malloc_ok = true := by simpa using fun x => hm (Or.inr x)
        exact Or.inr (Or.inr ⟨length, rfl, hc, h1, h2,
          find_created_table hash t key nkey mem length hs hc h1 h2⟩)

theorem getD_set_self (l : List (List PREFIX_STATS)) (h : Nat) (c : List PREFIX_STATS)
    (hh : h < l.length) : (l.set h c).getD h [] = c := by
  simp [List.getD_eq_getElem?_getD, hh]

theorem getD_set_other (l : List (List PREFIX_STATS)) (h i : Nat) (c : List PREFIX_STATS)
    (hi : i ≠ h) : (l.set h c).getD i [] = l.getD i [] := by
  simp [List.getD_eq_getElem?_getD, List.getElem?_set_ne (Ne.symm hi)]

/-- With at least one bucket the pointer `stats_prefix_find` returns points to a record. -/
theorem find_pointer_valid (hash : List Char → Nat) (t : Table) (key : List Char) (nkey : Nat)
    (mem : Alloc) (p : Nat × Nat) (hN : 0 < PREFIX_HASH_SIZE t)
    (hp : (stats_prefix_find hash t key nkey mem).2 = some p) :
    ∃ r, deref (stats_prefix_find hash t key nkey mem).1 p = some r := by
  rcases find_cases hash t key nkey mem with e | ⟨length, i, _, hc, e⟩ | ⟨length, _, _, _, _, e⟩
  · rw [e] at hp; cases hp
  · rw [e] at hp ⊢
    cases hp
    obtain ⟨r, hr, _⟩ := find_in_chain_lt key length _ i hc
    exact ⟨r, hr⟩
  · rw [e] at hp ⊢
    cases hp
    refine ⟨new_record key length, ?_⟩
    simp only [deref, table_with_new]
    rw [getD_set_self _ _ _ (show bucket_of hash t key length < t.prefix_stats.length from
      Nat.mod_lt _ hN)]
    simp

/-! ## C11: the counter updates of the three record functions -/

/-- C11: when `stats_prefix_find` returns a record `R` for the key, `record_get` adds one
to `R.num_gets` and, exactly when `is_hit` holds, one to `R.num_hits` (additions of
`uint64_t`, modulo `2 ^ 64`), `record_set` adds one to `R.num_sets` only and
`record_delete` one to `R.num_deletes` only; every other record, reached through any
other pointer, is as `stats_prefix_find` left it, and `stats_prefix_find` itself either
left the table as it was or only put the new record `R` in front of its chain. -/
theorem record_updates_target (hash : List Char → Nat) (t : Table) (key : List Char)
    (nkey : Nat) (mem : Alloc) (p : Nat × Nat) (R : PREFIX_STATS)
    (hp : (stats_prefix_find hash t key nkey mem).2 = some p)
    (hR : deref (stats_prefix_find hash t key nkey mem).1 p = some R) :
    (∀ is_hit,
      deref (stats_prefix_record_get hash t key nkey is_hit mem) p =
        some { R with num_gets := (R.num_gets + 1) % 2 ^ 64,
                      num_hits := if is_hit then (R.num_hits + 1) % 2 ^ 64
                                  else R.num_hits } ∧
      ∀ q, q ≠ p → deref (stats_prefix_record_get hash t key nkey is_hit mem) q =
        deref (stats_prefix_find hash t key nkey mem).1 q) ∧
    (deref (stats_prefix_record_set hash t key nkey mem) p =
        some { R with num_sets := (R.num_sets + 1) % 2 ^ 64 } ∧
      ∀ q, q ≠ p → deref (stats_prefix_record_set hash t key nkey mem) q =
        deref (stats_prefix_find hash t key nkey mem).1 q) ∧
    (deref (stats_prefix_record_delete hash t key nkey mem) p =
        some { R with num_deletes := (R.num_deletes + 1) % 2 ^ 64 } ∧
      ∀ q, q ≠ p → deref (stats_prefix_record_delete hash t key nkey mem) q =
        deref (stats_prefix_find hash t key nkey mem).1 q) ∧
    ((stats_prefix_find hash t key nkey mem).1 = t ∨
      ∃ length, (stats_prefix_find hash t key nkey mem).1 = table_with_new hash t key length ∧
        p = (bucket_of hash t key length, 0) ∧ R = new_record key length) := by
  refine ⟨?_, ?_, ?_, ?_⟩
  · intro is_hit
    rw [record_get_of_find hash t key nkey is_hit mem p hp]
    refine ⟨?_, ?_⟩
    · rw [deref_update, if_pos rfl, hR]
      cases is_hit <;> rfl
    · intro q hq
      rw [deref_update, if_neg hq]
  · rw [record_set_of_find hash t key nkey mem p hp]
    refine ⟨?_, ?_⟩
    · rw [deref_update, if_pos rfl, hR]
      rfl
    · intro q hq
      rw [deref_update, if_neg hq]
  · rw [record_delete_of_find hash t key nkey mem p hp]
    refine ⟨?_, ?_⟩
    · rw [deref_update, if_pos rfl, hR]
      rfl
    · intro q hq
      rw [deref_update, if_neg hq]
  · rcases find_cases hash t key nkey mem with e | ⟨length, i, _, _, e⟩ | ⟨length, _, _, _, _, e⟩
    · rw [e] at hp; cases hp
    · left; rw [e]
    · right
      rw [e] at hp hR ⊢
      cases hp
      refine ⟨length, rfl, rfl, ?_⟩
      by_cases hh : bucket_of hash t key length < t.prefix_stats.length
      · simp only [deref, table_with_new] at hR
        rw [getD_set_self _ _ _ hh] at hR
        simpa using hR.symm
      · exfalso
        simp only [deref, table_with_new] at hR
        rw [List.set_eq_of_length_le (by omega)] at hR
        have hnone : t.prefix_stats.getD (bucket_of hash t key length) [] = [] := by
          simp [List.getD_eq_getElem?_getD, List.getElem?_eq_none (by omega :
            t.prefix_stats.length ≤ bucket_of hash t key length)]
        rw [hnone] at hR
        simp at hR

/-- C11 on a table that holds the records of `user` and `img`: a `record_get` hit on
`user[9` counts on the record of `user` and leaves the record of `img` alone. -/
theorem record_updates_target_witness :
    deref
      (stats_prefix_record_get (fun s => s.length)
        (run (fun s => s.length) (stats_prefix_init '[' (process_start 16))
          [Op.record_get "user[1".toList 6 true Alloc.success,
           Op.record_set "img[7".toList 5 Alloc.success])
        "user[9".toList 6 true Alloc.success) (4, 0) =
      some { prefix_ := "user".toList, prefix_len := 4, num_gets := 2, num_sets := 0,
             num_deletes := 0, num_hits := 2 } ∧
    deref
      (stats_prefix_record_get (fun s => s.length)
        (run (fun s => s.length) (stats_prefix_init '[' (process_start 16))
          [Op.record_get "user[1".toList 6 true Alloc.success,
           Op.record_set "img[7".toList 5 Alloc.success])
        "user[9".toList 6 true Alloc.success) (3, 0) =
      some { prefix_ := "img".toList, prefix_len := 3, num_gets := 0, num_sets := 1,
             num_deletes := 0, num_hits := 0 } :=
  have h := record_updates_target (fun s => s.length)
    (run (fun s => s.length) (stats_prefix_init '[' (process_start 16))
      [Op.record_get "user[1".toList 6 true Alloc.success,
       Op.record_set "img[7".toList 5 Alloc.success])
    "user[9".toList 6 Alloc.success (4, 0)
    { prefix_ := "user".toList, prefix_len := 4, num_gets := 1, num_sets := 0,
      num_deletes := 0, num_hits := 1 }
    (by decide) (by decide)
  ⟨(h.1 true).1, ((h.1 true).2 (3, 0) (by decide)).trans (by decide)⟩

/-! ## The two outcomes of `stats_prefix_find` -/

theorem byte_at_lt_length (key : List Char) (p : Nat) (h : byte_at key p ≠ NUL) :
    p < key.length := by
  by_contra hl
  apply h
  simp [byte_at, List.getD_eq_getElem?_getD, List.getElem?_eq_none (by omega : key.length ≤ p)]

theorem not_mem_take_of_bytes (key : List Char) (p : Nat) (x : Char)
    (h : ∀ i, i < p → byte_at key i ≠ x) : x ∉ key.take p := by
  intro hx
  obtain ⟨i, hi⟩ := List.mem_iff_getElem?.1 hx
  have hip : i < p := by
    by_contra hn
    rw [List.getElem?_eq_none (by simp; omega)] at hi
    cases hi
  rw [List.getElem?_take_of_lt hip] at hi
  apply h i hip
  simp [byte_at, List.getD_eq_getElem?_getD, hi]

/-- What a successful scan says about the key. -/
theorem scan_facts (d : Char) (key : List Char) (nkey p : Nat)
    (hs : scan_key d key nkey 0 = some p) :
    p < nkey ∧ p < key.length ∧ (key.take p).length = p ∧ NUL ∉ key.take p ∧
      d ∉ key.take p ∧ strncpy key p = key.take p := by
  rw [scan_key_some_iff] at hs
  obtain ⟨_, h2, _, h4, h5⟩ := hs
  have hlen := byte_at_lt_length key p h4
  have hnul : NUL ∉ key.take p :=
    not_mem_take_of_bytes key p NUL (fun i hi => (h5 i (Nat.zero_le _) hi).1)
  have hdel : d ∉ key.take p :=
    not_mem_take_of_bytes key p d (fun i hi => (h5 i (Nat.zero_le _) hi).2)
  have hl : (key.take p).length = p := by simp; omega
  refine ⟨by omega, hlen, hl, hnul, hdel, ?_⟩
  have hkey : key = key.take p ++ key.drop p := (List.take_append_drop p key).symm
  unfold strncpy
  conv_lhs => rw [hkey, cstr_append_of_not_mem _ _ hnul, List.append_assoc]
  have := List.take_left (key.take p) (cstr (key.drop p) ++ List.replicate p NUL)
  rw [hl] at this
  exact this

theorem strncmp_eq_of_cstr (s key : List Char) (p : Nat)
    (hl : (key.take p).length = p) (h : cstr s = key.take p) :
    strncmp_eq s key p = true := by
  apply strncmp_eq_of_take
  have hpre : cstr s <+: s := List.takeWhile_prefix _
  have e := List.prefix_iff_eq_take.1 hpre
  rw [h, hl] at e
  exact e.symm

/-- The outcomes of `stats_prefix_find`, the two counters read without wrap-around: for
every table with at least one bucket and every key whose first delimiter
is at position `p` (before `nkey`, no NUL byte up to it), with both allocations
succeeding `stats_prefix_find` has exactly one of two outcomes: it returns a record
that was already in bucket `hash(key[0 .. p)) mod N` and leaves the table unchanged, or
it returns a new record with prefix `key[0 .. p)`, length `p` and zero counters at the
head of that bucket, the old chain behind it, the other buckets unchanged,
`num_prefixes` one larger and `total_prefix_size` larger by `p`.  The second outcome
occurs only if no record of that bucket has a stored prefix equal to `key[0 .. p)`. -/
theorem find_outcomes (hash : List Char → Nat) (t : Table) (key : List Char) (nkey p : Nat)
    (hN : 0 < PREFIX_HASH_SIZE t) (hp : p < nkey)
    (hd : byte_at key p = t.prefix_delimiter) (hnul : byte_at key p ≠ NUL)
    (hfirst : ∀ i, i < p → byte_at key i ≠ NUL ∧ byte_at key i ≠ t.prefix_delimiter) :
    (find_returned_existing hash t key nkey p ∨ find_created_new hash t key nkey p) ∧
    ¬ (find_returned_existing hash t key nkey p ∧ find_created_new hash t key nkey p) ∧
    (find_created_new hash t key nkey p →
      ∀ r ∈ t.prefix_stats.getD (hash (key.take p) % PREFIX_HASH_SIZE t) [],
        cstr r.prefix_ ≠ key.take p) := by
  have hs : scan_key t.prefix_delimiter key nkey 0 = some p := by
    rw [scan_key_some_iff]
    exact ⟨Nat.zero_le _, by omega, hd, hnul, fun i _ hi => hfirst i hi⟩
  obtain ⟨_, _, hl, _, _, hcpy⟩ := scan_facts _ key nkey p hs
  have hexcl : ¬ (find_returned_existing hash t key nkey p ∧
      find_created_new hash t key nkey p) := by
    rintro ⟨⟨h1, _⟩, ⟨_, _, _, _, _, h2, _⟩⟩
    rw [h1] at h2
    omega
  have hh : bucket_of hash t key p < t.prefix_stats.length := Nat.mod_lt _ hN
  rcases find_cases hash t key nkey Alloc.success with
    e | ⟨length, i, hs2, hc, e⟩ | ⟨length, hs2, hc, _, _, e⟩
  · exfalso
    have := (find_null_iff_scan hash t key nkey).1 (by rw [e])
    rw [hs] at this
    cases this
  · rw [hs] at hs2
    cases hs2
    obtain ⟨R, hR, _⟩ := find_in_chain_lt key p _ i hc
    have h1 : find_returned_existing hash t key nkey p :=
      ⟨by rw [e], i, R, by rw [e]; rfl, hR⟩
    exact ⟨Or.inl h1, hexcl, fun h2 => absurd ⟨h1, h2⟩ hexcl⟩
  · rw [hs] at hs2
    cases hs2
    have h2 : find_created_new hash t key nkey p := by
      unfold find_created_new
      rw [e]
      refine ⟨rfl, ?_, ?_, ?_, rfl, rfl, rfl⟩
      · simp only [table_with_new]
        change (t.prefix_stats.set (bucket_of hash t key p) _).getD (bucket_of hash t key p) [] = _
        rw [getD_set_self _ _ _ hh]
        simp only [new_record, hcpy]
        rfl
      · intro i hi
        simp only [table_with_new]
        exact getD_set_other _ _ _ _ hi
      · simp [table_with_new]
    refine ⟨Or.inr h2, hexcl, fun _ r hr heq => ?_⟩
    have hfalse := find_in_chain_none key p _ hc r hr
    rw [strncmp_eq_of_cstr r.prefix_ key p hl heq] at hfalse
    cases hfalse

/-- On a table that holds the record of `user` the key `img[7` makes
`stats_prefix_find` create the record of `img`. -/
theorem find_outcomes_witness :
    find_created_new (fun s => s.length)
      (run (fun s => s.length) (stats_prefix_init '[' (process_start 16))
        [Op.record_get "user[1".toList 6 true Alloc.success]) "img[7".toList 5 3 ∧
    ¬ find_returned_existing (fun s => s.length)
      (run (fun s => s.length) (stats_prefix_init '[' (process_start 16))
        [Op.record_get "user[1".toList 6 true Alloc.success]) "img[7".toList 5 3 :=
  have h := find_outcomes (fun s => s.length)
    (run (fun s => s.length) (stats_prefix_init '[' (process_start 16))
      [Op.record_get "user[1".toList 6 true Alloc.success]) "img[7".toList 5 3
    (by decide) (by decide) (by decide) (by decide)
    (by intro i hi; interval_cases i <;> decide)
  have hne : ¬ find_returned_existing (fun s => s.length)
      (run (fun s => s.length) (stats_prefix_init '[' (process_start 16))
        [Op.record_get "user[1".toList 6 true Alloc.success]) "img[7".toList 5 3 := by
    rintro ⟨h1, _⟩
    exact absurd (congrArg Table.num_prefixes h1) (by decide)
  ⟨h.1.resolve_left hne, hne⟩

/-! ## C12: two dumps in a row -/

theorem step_record (hash : List Char → Nat) (t : Table) (op : Op) (key : List Char)
    (nkey : Nat) (mem : Alloc) (h : call_args op = some (key, nkey, mem)) :
    step hash t op =
      match (stats_prefix_find hash t key nkey mem).2 with
      | some p => update_record (apply_op op) (stats_prefix_find hash t key nkey mem).1 p
      | none => (stats_prefix_find hash t key nkey mem).1 := by
  cases op with
  | init d => simp [call_args] at h
  | clear => simp [call_args] at h
  | record_get k n is_hit m =>
    simp only [call_args, Option.some.injEq, Prod.mk.injEq] at h
    obtain ⟨rfl, rfl, rfl⟩ := h
    simp only [step, stats_prefix_record_get, apply_op]
    split <;> rename_i e <;> rw [e]
  | record_delete k n m =>
    simp only [call_args, Option.some.injEq, Prod.mk.injEq] at h
    obtain ⟨rfl, rfl, rfl⟩ := h
    simp only [step, stats_prefix_record_delete, apply_op]
    split <;> rename_i e <;> rw [e]
  | record_set k n m =>
    simp only [call_args, Option.some.injEq, Prod.mk.injEq] at h
    obtain ⟨rfl, rfl, rfl⟩ := h
    simp only [step, stats_prefix_record_set, apply_op]
    split <;> rename_i e <;> rw [e]

theorem call_args_cases (op : Op) :
    (∃ d, op = Op.init d) ∨ op = Op.clear ∨ ∃ key nkey mem, call_args op = some (key, nkey, mem) := by
  cases op with
  | init d => exact Or.inl ⟨d, rfl⟩
  | clear => exact Or.inr (Or.inl rfl)
  | record_get k n is_hit m => exact Or.inr (Or.inr ⟨k, n, m, rfl⟩)
  | record_delete k n m => exact Or.inr (Or.inr ⟨k, n, m, rfl⟩)
  | record_set k n m => exact Or.inr (Or.inr ⟨k, n, m, rfl⟩)

theorem apply_op_prefix_len (op : Op) (r : PREFIX_STATS) :
    (apply_op op r).prefix_len = r.prefix_len := by
  cases op with
  | init d => rfl
  | clear => rfl
  | record_get k n is_hit m => cases is_hit <;> rfl
  | record_delete k n m => rfl
  | record_set k n m => rfl

/-- A property of tables that the lookup and the counter write preserve is preserved
by every record call. -/
theorem step_record_preserves (J : Table → Prop) (hash : List Char → Nat) (t : Table)
    (op : Op) (key : List Char) (nkey : Nat) (mem : Alloc)
    (h : call_args op = some (key, nkey, mem))
    (hfind : J t → J (stats_prefix_find hash t key nkey mem).1)
    (hupd : ∀ t1 p, J t1 → J (update_record (apply_op op) t1 p)) (hJ : J t) :
    J (step hash t op) := by
  rw [step_record hash t op key nkey mem h]
  split
  · exact hupd _ _ (hfind hJ)
  · exact hfind hJ

/-! ## The counters after a single `init` -/

theorem counts_exact_find (hash : List Char → Nat) (t : Table) (key : List Char) (nkey : Nat)
    (mem : Alloc) (h : 0 < t.prefix_stats.length ∧ counts_exact t) :
    0 < (stats_prefix_find hash t key nkey mem).1.prefix_stats.length ∧
      counts_exact (stats_prefix_find hash t key nkey mem).1 := by
  rcases find_cases hash t key nkey mem with e | ⟨length, i, _, _, e⟩ | ⟨length, hs, _, _, _, e⟩
  · rw [e]; exact h
  · rw [e]; exact h
  · rw [e]
    obtain ⟨hN, h1, h2, h3⟩ := h
    obtain ⟨_, _, hl, hnul, _, hcpy⟩ := scan_facts _ key nkey length hs
    have hh : bucket_of hash t key length < t.prefix_stats.length := Nat.mod_lt _ hN
    obtain ⟨l1, l2, e1, e2⟩ := flatten_set_cons t.prefix_stats _ (new_record key length) hh
    refine ⟨by simpa [table_with_new] using hN, ?_⟩
    simp only [counts_exact, all_records, table_with_new] at h1 h2 h3 ⊢
    rw [e2]
    rw [e1] at h1 h2 h3
    refine ⟨?_, ?_, ?_⟩
    · simp only [List.length_append, List.length_cons] at h1 ⊢
      omega
    · simp only [List.map_append, List.map_cons, List.sum_append, List.sum_cons,
        new_record] at h2 ⊢
      omega
    · intro r hr
      rcases List.mem_append.1 hr with hr | hr
      · exact h3 r (List.mem_append_left _ hr)
      · rcases List.mem_cons.1 hr with hr | hr
        · subst hr
          simp only [new_record, hcpy]
          exact ⟨hl.symm, hnul⟩
        · exact h3 r (List.mem_append_right _ hr)

theorem counts_exact_update (f : PREFIX_STATS → PREFIX_STATS) (t : Table) (p : Nat × Nat)
    (hf1 : ∀ r, (f r).prefix_ = r.prefix_) (hf2 : ∀ r, (f r).prefix_len = r.prefix_len)
    (h : 0 < t.prefix_stats.length ∧ counts_exact t) :
    0 < (update_record f t p).prefix_stats.length ∧ counts_exact (update_record f t p) := by
  obtain ⟨hN, h1, h2, h3⟩ := h
  refine ⟨by simpa [update_record, length_modify_at] using hN, ?_⟩
  simp only [counts_exact, all_records, update_record] at h1 h2 h3 ⊢
  rcases flatten_modify_at f p.1 p.2 t.prefix_stats with e | ⟨l1, r, l2, e1, e2⟩
  · rw [e]; exact ⟨h1, h2, h3⟩
  · rw [e2]
    rw [e1] at h1 h2 h3
    refine ⟨?_, ?_, ?_⟩
    · simpa using h1
    · simpa [hf2] using h2
    · intro x hx
      rcases List.mem_append.1 hx with hx | hx
      · exact h3 x (List.mem_append_left _ hx)
      · rcases List.mem_cons.1 hx with hx | hx
        · subst hx
          rw [hf1, hf2]
          exact h3 r (by simp)
        · exact h3 x (List.mem_append_right _ (List.mem_cons_of_mem _ hx))

theorem counts_exact_clear (t : Table) (h : 0 < t.prefix_stats.length) :
    0 < (stats_prefix_clear t).prefix_stats.length ∧ counts_exact (stats_prefix_clear t) := by
  refine ⟨by simpa [stats_prefix_clear] using h, ?_⟩
  simp [counts_exact, all_records, stats_prefix_clear, flatten_map_nil]

theorem counts_exact_step (hash : List Char → Nat) (t : Table) (op : Op) (hop : not_init op)
    (h : 0 < t.prefix_stats.length ∧ counts_exact t) :
    0 < (step hash t op).prefix_stats.length ∧ counts_exact (step hash t op) := by
  rcases call_args_cases op with ⟨d, rfl⟩ | rfl | ⟨key, nkey, mem, hargs⟩
  · exact absurd hop (by simp [not_init])
  · exact counts_exact_clear t h.1
  · exact step_record_preserves
      (fun t => 0 < t.prefix_stats.length ∧ counts_exact t) hash t op key nkey mem hargs
      (counts_exact_find hash t key nkey mem)
      (fun t1 p => counts_exact_update _ t1 p (apply_op_prefix_eq op) (apply_op_prefix_len op))
      h

theorem counts_exact_run (hash : List Char → Nat) (ops : List Op) (t : Table)
    (hops : ∀ op ∈ ops, not_init op) (h : 0 < t.prefix_stats.length ∧ counts_exact t) :
    counts_exact (run hash t ops) := by
  induction ops generalizing t with
  | nil => exact h.2
  | cons op rest ih =>
    exact ih _ (fun o ho => hops o (List.mem_cons_of_mem _ ho))
      (counts_exact_step hash t op (hops op (List.mem_cons_self _ _)) h)

/-- Without wrap-around of the two `int` counters: in every state reached from a table
of at least one bucket, initialised once
by `init` at process start, through `record_get`, `record_set`, `record_delete` and
`clear` calls (any hash function, any allocation outcomes), `num_prefixes` is the
number of records in all buckets, `total_prefix_size` is the sum of their `prefix_len`,
and the `prefix_len` of every record is the length of its stored prefix. -/
theorem counts_are_exact (hash : List Char → Nat) (d : Char) (n : Nat) (ops : List Op)
    (hn : 0 < n) (hops : ∀ op ∈ ops, not_init op) :
    (run hash (stats_prefix_init d (process_start n)) ops).num_prefixes =
      ((run hash (stats_prefix_init d (process_start n)) ops).prefix_stats.map
        List.length).sum ∧
    (run hash (stats_prefix_init d (process_start n)) ops).total_prefix_size =
      ((run hash (stats_prefix_init d (process_start n)) ops).prefix_stats.flatten.map
        (fun r => r.prefix_len)).sum ∧
    ∀ r ∈ (run hash (stats_prefix_init d (process_start n)) ops).prefix_stats.flatten,
      r.prefix_len = (cstr r.prefix_).length ∧ r.prefix_len = r.prefix_.length := by
  have h0 : 0 < (stats_prefix_init d (process_start n)).prefix_stats.length ∧
      counts_exact (stats_prefix_init d (process_start n)) := by
    refine ⟨by simpa [stats_prefix_init, process_start, PREFIX_HASH_SIZE] using hn, ?_⟩
    simp [counts_exact, all_records, stats_prefix_init, process_start, flatten_replicate_nil]
  obtain ⟨h1, h2, h3⟩ := counts_exact_run hash ops _ hops h0
  simp only [all_records] at h1 h2 h3
  refine ⟨?_, h2, ?_⟩
  · rw [h1, List.length_flatten]
  · intro r hr
    obtain ⟨e, hnul⟩ := h3 r hr
    exact ⟨by rw [cstr_of_not_mem _ hnul]; exact e, e⟩

/-- The counters after a run with three prefixes, a failed allocation and a `clear` in
between. -/
theorem counts_are_exact_witness :
    (run (fun s => s.length) (stats_prefix_init '[' (process_start 16))
      [Op.record_get "old[1".toList 5 true Alloc.success, Op.clear,
       Op.record_get "user[1".toList 6 true Alloc.success,
       Op.record_set "img[7".toList 5 { calloc_ok := true, malloc_ok := false },
       Op.record_delete "ab[7".toList 4 Alloc.success,
       Op.record_set "abc".toList 3 Alloc.success]).num_prefixes = 2 ∧
    (run (fun s => s.length) (stats_prefix_init '[' (process_start 16))
      [Op.record_get "old[1".toList 5 true Alloc.success, Op.clear,
       Op.record_get "user[1".toList 6 true Alloc.success,
       Op.record_set "img[7".toList 5 { calloc_ok := true, malloc_ok := false },
       Op.record_delete "ab[7".toList 4 Alloc.success,
       Op.record_set "abc".toList 3 Alloc.success]).total_prefix_size = 6 :=
  have h := counts_are_exact (fun s => s.length) '[' 16
    [Op.record_get "old[1".toList 5 true Alloc.success, Op.clear,
     Op.record_get "user[1".toList 6 true Alloc.success,
     Op.record_set "img[7".toList 5 { calloc_ok := true, malloc_ok := false },
     Op.record_delete "ab[7".toList 4 Alloc.success,
     Op.record_set "abc".toList 3 Alloc.success]
    (by decide) (by decide)
  ⟨h.1.trans (by decide), h.2.1.trans (by decide)⟩

/-! ## C16: one bucket per prefix, one record per prefix -/

theorem incr64_of_lt (n : Nat) (h : n + 1 < 2 ^ 64) : incr64 n = n + 1 :=
  Nat.mod_eq_of_lt h

/-- The records after `stats_prefix_find` are those before, and the new one if any. -/
theorem find_records (hash : List Char → Nat) (t : Table) (key : List Char) (nkey : Nat)
    (mem : Alloc) :
    all_records (stats_prefix_find hash t key nkey mem).1 = all_records t ∨
    ∃ length l1 l2, scan_key t.prefix_delimiter key nkey 0 = some length ∧
      all_records t = l1 ++ l2 ∧
      all_records (stats_prefix_find hash t key nkey mem).1 =
        l1 ++ new_record key length :: l2 := by
  rcases find_cases hash t key nkey mem with e | ⟨length, i, _, _, e⟩ | ⟨length, hs, _, _, _, e⟩
  · rw [e]; exact Or.inl rfl
  · rw [e]; exact Or.inl rfl
  · rw [e]
    by_cases hh : bucket_of hash t key length < t.prefix_stats.length
    · obtain ⟨l1, l2, e1, e2⟩ := flatten_set_cons t.prefix_stats _ (new_record key length) hh
      exact Or.inr ⟨length, l1, l2, hs, e1, e2⟩
    · left
      simp only [all_records, table_with_new]
      rw [List.set_eq_of_length_le (by omega)]

/-- The records after a write through a pointer. -/
theorem update_records (f : PREFIX_STATS → PREFIX_STATS) (t : Table) (p : Nat × Nat) :
    (deref t p = none ∧ update_record f t p = t) ∨
    ∃ r l1 l2, deref t p = some r ∧ all_records t = l1 ++ r :: l2 ∧
      all_records (update_record f t p) = l1 ++ f r :: l2 := by
  cases hd : deref t p with
  | none => exact Or.inl ⟨rfl, update_of_null_deref f t p hd⟩
  | some r =>
    obtain ⟨l1, l2, e1, e2⟩ := flatten_modify_at_deref f p.1 p.2 t.prefix_stats r hd
    exact Or.inr ⟨r, l1, l2, rfl, e1, e2⟩

theorem find_sums (hash : List Char → Nat) (t : Table) (key : List Char) (nkey : Nat)
    (mem : Alloc) :
    sum_gets (stats_prefix_find hash t key nkey mem).1 = sum_gets t ∧
    sum_hits (stats_prefix_find hash t key nkey mem).1 = sum_hits t ∧
    sum_sets (stats_prefix_find hash t key nkey mem).1 = sum_sets t ∧
    sum_deletes (stats_prefix_find hash t key nkey mem).1 = sum_deletes t := by
  simp only [sum_gets, sum_hits, sum_sets, sum_deletes]
  rcases find_records hash t key nkey mem with e | ⟨length, l1, l2, _, e1, e2⟩
  · rw [e]; exact ⟨rfl, rfl, rfl, rfl⟩
  · rw [e1, e2]
    simp [new_record]

theorem find_frame (hash : List Char → Nat) (t : Table) (key : List Char) (nkey : Nat)
    (mem : Alloc) :
    (stats_prefix_find hash t key nkey mem).1.prefix_delimiter = t.prefix_delimiter ∧
    (stats_prefix_find hash t key nkey mem).1.prefix_stats.length = t.prefix_stats.length := by
  rcases find_cases hash t key nkey mem with e | ⟨length, i, _, _, e⟩ | ⟨length, _, _, _, _, e⟩
  · rw [e]; exact ⟨rfl, rfl⟩
  · rw [e]; exact ⟨rfl, rfl⟩
  · rw [e]; exact ⟨rfl, by simp [table_with_new]⟩

theorem step_frame (hash : List Char → Nat) (t : Table) (op : Op) (key : List Char)
    (nkey : Nat) (mem : Alloc) (hargs : call_args op = some (key, nkey, mem)) :
    (step hash t op).prefix_delimiter = t.prefix_delimiter ∧
    (step hash t op).prefix_stats.length = t.prefix_stats.length := by
  obtain ⟨h1, h2⟩ := find_frame hash t key nkey mem
  rw [step_record hash t op key nkey mem hargs]
  split
  · exact ⟨h1, by simpa [update_record, length_modify_at] using h2⟩
  · exact ⟨h1, h2⟩

theorem apply_op_counts (op : Op) (r : PREFIX_STATS)
    (hg : r.num_gets + 1 < 2 ^ 64) (hh : r.num_hits + 1 < 2 ^ 64)
    (hs : r.num_sets + 1 < 2 ^ 64) (hx : r.num_deletes + 1 < 2 ^ 64) :
    (apply_op op r).num_gets = r.num_gets + get_calls [op] ∧
    (apply_op op r).num_hits = r.num_hits + hit_calls [op] ∧
    (apply_op op r).num_sets = r.num_sets + set_calls [op] ∧
    (apply_op op r).num_deletes = r.num_deletes + delete_calls [op] := by
  cases op with
  | init d => simp [apply_op, get_calls, hit_calls, set_calls, delete_calls]
  | clear => simp [apply_op, get_calls, hit_calls, set_calls, delete_calls]
  | record_get k n is_hit m =>
    cases is_hit <;>
      simp [apply_op, bump_get, get_calls, hit_calls, set_calls, delete_calls,
        incr64_of_lt _ hg, incr64_of_lt _ hh]
  | record_delete k n m =>
    simp [apply_op, get_calls, hit_calls, set_calls, delete_calls, incr64_of_lt _ hx]
  | record_set k n m =>
    simp [apply_op, get_calls, hit_calls, set_calls, delete_calls, incr64_of_lt _ hs]

theorem tracked_counts_of_tracked (d : Char) (op : Op) (h : tracked d op = true) :
    tracked_gets d [op] = get_calls [op] ∧ tracked_hits d [op] = hit_calls [op] ∧
    tracked_sets d [op] = set_calls [op] ∧ tracked_deletes d [op] = delete_calls [op] := by
  simp [tracked_gets, tracked_hits, tracked_sets, tracked_deletes, get_calls, hit_calls,
    set_calls, delete_calls, List.countP_cons, h]

theorem tracked_counts_of_untracked (d : Char) (op : Op) (h : tracked d op = false) :
    tracked_gets d [op] = 0 ∧ tracked_hits d [op] = 0 ∧
    tracked_sets d [op] = 0 ∧ tracked_deletes d [op] = 0 := by
  simp [tracked_gets, tracked_hits, tracked_sets, tracked_deletes, List.countP_cons, h]

theorem le_sum_of_mem (g : PREFIX_STATS → Nat) (l : List PREFIX_STATS) (r : PREFIX_STATS)
    (h : r ∈ l) : g r ≤ (l.map g).sum := by
  induction l with
  | nil => simp at h
  | cons x xs ih =>
    rcases List.mem_cons.1 h with e | h
    · subst e; simp
    · have := ih h
      simp only [List.map_cons, List.sum_cons]
      omega

/-- One record call with successful allocation adds its event to the sums, once. -/
theorem step_sums (hash : List Char → Nat) (t : Table) (op : Op)
    (hN : 0 < PREFIX_HASH_SIZE t) (hop : record_call_ok op)
    (bg : sum_gets t + 1 < 2 ^ 64) (bh : sum_hits t + 1 < 2 ^ 64)
    (bs : sum_sets t + 1 < 2 ^ 64) (bx : sum_deletes t + 1 < 2 ^ 64) :
    sum_gets (step hash t op) = sum_gets t + tracked_gets t.prefix_delimiter [op] ∧
    sum_hits (step hash t op) = sum_hits t + tracked_hits t.prefix_delimiter [op] ∧
    sum_sets (step hash t op) = sum_sets t + tracked_sets t.prefix_delimiter [op] ∧
    sum_deletes (step hash t op) = sum_deletes t + tracked_deletes t.prefix_delimiter [op] := by
  obtain ⟨key, nkey, hargs⟩ := hop
  rw [step_record hash t op key nkey Alloc.success hargs]
  cases hs : scan_key t.prefix_delimiter key nkey 0 with
  | none =>
    have htr : tracked t.prefix_delimiter op = false := by simp [tracked, hargs, hs]
    obtain ⟨c1, c2, c3, c4⟩ := tracked_counts_of_untracked _ op htr
    rw [find_untracked hash t key nkey _ hs, c1, c2, c3, c4]
    exact ⟨rfl, rfl, rfl, rfl⟩
  | some length =>
    have htr : tracked t.prefix_delimiter op = true := by simp [tracked, hargs, hs]
    obtain ⟨c1, c2, c3, c4⟩ := tracked_counts_of_tracked _ op htr
    rw [c1, c2, c3, c4]
    obtain ⟨f1, f2, f3, f4⟩ := find_sums hash t key nkey Alloc.success
    cases hp : (stats_prefix_find hash t key nkey Alloc.success).2 with
    | none =>
      have := (find_null_iff_scan hash t key nkey).1 hp
      rw [hs] at this
      cases this
    | some p =>
      simp only
      obtain ⟨R, hR⟩ := find_pointer_valid hash t key nkey Alloc.success p hN hp
      rcases update_records (apply_op op) (stats_prefix_find hash t key nkey Alloc.success).1 p
        with ⟨hnone, _⟩ | ⟨r, l1, l2, hd, e1, e2⟩
      · rw [hR] at hnone; cases hnone
      · have hmem : r ∈ all_records (stats_prefix_find hash t key nkey Alloc.success).1 := by
          rw [e1]; simp
        have m1 : r.num_gets ≤ _ := le_sum_of_mem (fun r => r.num_gets) _ r hmem
        have m2 : r.num_hits ≤ _ := le_sum_of_mem (fun r => r.num_hits) _ r hmem
        have m3 : r.num_sets ≤ _ := le_sum_of_mem (fun r => r.num_sets) _ r hmem
        have m4 : r.num_deletes ≤ _ := le_sum_of_mem (fun r => r.num_deletes) _ r hmem
        simp only [sum_gets, sum_hits, sum_sets, sum_deletes] at f1 f2 f3 f4 bg bh bs bx ⊢
        rw [f1] at m1
        rw [f2] at m2
        rw [f3] at m3
        rw [f4] at m4
        obtain ⟨a1, a2, a3, a4⟩ := apply_op_counts op r (by omega) (by omega) (by omega)
          (by omega)
        rw [e2, ← f1, ← f2, ← f3, ← f4, e1]
        simp only [List.map_append, List.map_cons, List.sum_append, List.sum_cons, a1, a2,
          a3, a4]
        refine ⟨?_, ?_, ?_, ?_⟩ <;> omega

theorem tracked_counts_cons (d : Char) (op : Op) (ops : List Op) :
    tracked_gets d (op :: ops) = tracked_gets d [op] + tracked_gets d ops ∧
    tracked_hits d (op :: ops) = tracked_hits d [op] + tracked_hits d ops ∧
    tracked_sets d (op :: ops) = tracked_sets d [op] + tracked_sets d ops ∧
    tracked_deletes d (op :: ops) = tracked_deletes d [op] + tracked_deletes d ops := by
  simp only [tracked_gets, tracked_hits, tracked_sets, tracked_deletes]
  refine ⟨?_, ?_, ?_, ?_⟩ <;>
    · rw [← List.singleton_append, List.countP_append]

theorem tracked_counts_le_one (d : Char) (op : Op) :
    tracked_gets d [op] ≤ 1 ∧ tracked_hits d [op] ≤ 1 ∧
    tracked_sets d [op] ≤ 1 ∧ tracked_deletes d [op] ≤ 1 := by
  simp only [tracked_gets, tracked_hits, tracked_sets, tracked_deletes]
  exact ⟨List.countP_le_length _, List.countP_le_length _, List.countP_le_length _,
    List.countP_le_length _⟩

theorem run_sums (hash : List Char → Nat) (d : Char) (ops : List Op) :
    ∀ t : Table, t.prefix_delimiter = d → 0 < PREFIX_HASH_SIZE t →
      (∀ op ∈ ops, record_call_ok op) →
      sum_gets t + ops.length < 2 ^ 64 → sum_hits t + ops.length < 2 ^ 64 →
      sum_sets t + ops.length < 2 ^ 64 → sum_deletes t + ops.length < 2 ^ 64 →
      sum_gets (run hash t ops) = sum_gets t + tracked_gets d ops ∧
      sum_hits (run hash t ops) = sum_hits t + tracked_hits d ops ∧
      sum_sets (run hash t ops) = sum_sets t + tracked_sets d ops ∧
      sum_deletes (run hash t ops) = sum_deletes t + tracked_deletes d ops := by
  induction ops with
  | nil =>
    intro t _ _ _ _ _ _ _
    simp [run, tracked_gets, tracked_hits, tracked_sets, tracked_deletes]
  | cons op rest ih =>
    intro t hd hN hops bg bh bs bx
    simp only [List.length_cons] at bg bh bs bx
    have hop := hops op (List.mem_cons_self _ _)
    obtain ⟨s1, s2, s3, s4⟩ := step_sums hash t op hN hop (by omega) (by omega) (by omega)
      (by omega)
    rw [hd] at s1 s2 s3 s4
    obtain ⟨o1, o2, o3, o4⟩ := tracked_counts_le_one d op
    obtain ⟨c1, c2, c3, c4⟩ := tracked_counts_cons d op rest
    obtain ⟨key, nkey, hargs⟩ := hop
    obtain ⟨fr1, fr2⟩ := step_frame hash t op key nkey _ hargs
    obtain ⟨i1, i2, i3, i4⟩ := ih (step hash t op) (fr1.trans hd)
      (by simpa [PREFIX_HASH_SIZE, fr2] using hN)
      (fun o ho => hops o (List.mem_cons_of_mem _ ho))
      (by omega) (by omega) (by omega) (by omega)
    rw [run_cons, i1, i2, i3, i4, s1, s2, s3, s4, c1, c2, c3, c4]
    refine ⟨?_, ?_, ?_, ?_⟩ <;> omega

/-- C18: for every hash function, in a table of at least one bucket initialised by
`init(d)` and driven by fewer than `2 ^ 64` `record_get` / `record_set` /
`record_delete` calls with allocation succeeding, the sum of `num_gets` over all
records is the number of `record_get` calls with a tracked key, the sum of `num_hits`
the number of those with `is_hit`, the sums of `num_sets` and `num_deletes` the numbers
of tracked `record_set` and `record_delete` calls; after a following `clear` all four
sums are zero. -/
theorem events_conserved (hash : List Char → Nat) (d : Char) (t0 : Table) (ops : List Op)
    (hN : 0 < PREFIX_HASH_SIZE t0) (hops : ∀ op ∈ ops, record_call_ok op)
    (hlen : ops.length < 2 ^ 64) :
    sum_gets (run hash (stats_prefix_init d t0) ops) = tracked_gets d ops ∧
    sum_hits (run hash (stats_prefix_init d t0) ops) = tracked_hits d ops ∧
    sum_sets (run hash (stats_prefix_init d t0) ops) = tracked_sets d ops ∧
    sum_deletes (run hash (stats_prefix_init d t0) ops) = tracked_deletes d ops ∧
    sum_gets (stats_prefix_clear (run hash (stats_prefix_init d t0) ops)) = 0 ∧
    sum_hits (stats_prefix_clear (run hash (stats_prefix_init d t0) ops)) = 0 ∧
    sum_sets (stats_prefix_clear (run hash (stats_prefix_init d t0) ops)) = 0 ∧
    sum_deletes (stats_prefix_clear (run hash (stats_prefix_init d t0) ops)) = 0 := by
  have hz : all_records (stats_prefix_init d t0) = [] := by
    simp [all_records, stats_prefix_init, flatten_replicate_nil]
  have z1 : sum_gets (stats_prefix_init d t0) = 0 := by simp [sum_gets, hz]
  have z2 : sum_hits (stats_prefix_init d t0) = 0 := by simp [sum_hits, hz]
  have z3 : sum_sets (stats_prefix_init d t0) = 0 := by simp [sum_sets, hz]
  have z4 : sum_deletes (stats_prefix_init d t0) = 0 := by simp [sum_deletes, hz]
  obtain ⟨r1, r2, r3, r4⟩ := run_sums hash d ops (stats_prefix_init d t0) rfl
    (by simpa [PREFIX_HASH_SIZE, stats_prefix_init] using hN) hops
    (by omega) (by omega) (by omega) (by omega)
  rw [z1, Nat.zero_add] at r1
  rw [z2, Nat.zero_add] at r2
  rw [z3, Nat.zero_add] at r3
  rw [z4, Nat.zero_add] at r4
  refine ⟨r1, r2, r3, r4, ?_, ?_, ?_, ?_⟩ <;>
    simp [sum_gets, sum_hits, sum_sets, sum_deletes, all_records, stats_prefix_clear,
      flatten_map_nil]

/-- C18 on a run with two prefixes and two calls on keys without delimiter. -/
theorem events_conserved_witness :
    sum_gets (run (fun s => s.length) (stats_prefix_init '[' (process_start 16))
      [Op.record_get "user[1".toList 6 true Alloc.success,
       Op.record_get "img[7".toList 5 false Alloc.success,
       Op.record_get "abc".toList 3 true Alloc.success,
       Op.record_set "user[2".toList 6 Alloc.success,
       Op.record_delete "plain".toList 5 Alloc.success,
       Op.record_get "user[3".toList 6 true Alloc.success]) = 3 ∧
    sum_hits (run (fun s => s.length) (stats_prefix_init '[' (process_start 16))
      [Op.record_get "user[1".toList 6 true Alloc.success,
       Op.record_get "img[7".toList 5 false Alloc.success,
       Op.record_get "abc".toList 3 true Alloc.success,
       Op.record_set "user[2".toList 6 Alloc.success,
       Op.record_delete "plain".toList 5 Alloc.success,
       Op.record_get "user[3".toList 6 true Alloc.success]) = 2 :=
  have h := events_conserved (fun s => s.length) '[' (process_start 16)
    [Op.record_get "user[1".toList 6 true Alloc.success,
     Op.record_get "img[7".toList 5 false Alloc.success,
     Op.record_get "abc".toList 3 true Alloc.success,
     Op.record_set "user[2".toList 6 Alloc.success,
     Op.record_delete "plain".toList 5 Alloc.success,
     Op.record_get "user[3".toList 6 true Alloc.success]
    (by decide)
    (by
      intro op hop
      simp only [List.mem_cons, List.mem_singleton, List.not_mem_nil, or_false] at hop
      rcases hop with rfl | rfl | rfl | rfl | rfl | rfl <;> exact ⟨_, _, rfl⟩)
    (by decide)
  ⟨h.1.trans (by decide), h.2.1.trans (by decide)⟩

/-! ## The statics and the dump with their `int` variables -/

theorem int32_of_fits (x : Int) (h0 : 0 ≤ x) (h1 : x < 2147483648) : int32 x = x := by
  unfold int32
  omega

theorem int32_add (x y : Int) : int32 (int32 x + y) = int32 (x + y) := by
  unfold int32
  omega

theorem int32_zero : int32 ((0 : Nat) : Int) = 0 := by decide

theorem size_t_of_fits (n : Nat) (h : n < 18446744073709551616) : size_t_of (n : Int) = n := by
  unfold size_t_of
  omega

theorem process_start_ints (n : Nat) : process_start_int n = ints_of (process_start n) := by
  simp only [process_start_int, ints_of, process_start, int32_zero]

theorem init_ints (d : Char) (t : Table) :
    stats_prefix_init_int d (ints_of t) = ints_of (stats_prefix_init d t) := rfl

theorem clear_ints (t : Table) :
    stats_prefix_clear_int (ints_of t) = ints_of (stats_prefix_clear t) := by
  simp only [stats_prefix_clear_int, ints_of, stats_prefix_clear, int32_zero]

/-- On the `int`s, `stats_prefix_find` does what it does on the counters without
wrap-around, each sum stored in an `int`. -/
theorem find_ints (hash : List Char → Nat) (t : Table) (key : List Char) (nkey : Nat)
    (mem : Alloc) :
    stats_prefix_find_int hash (ints_of t) key nkey mem =
      (ints_of (stats_prefix_find hash t key nkey mem).1,
        (stats_prefix_find hash t key nkey mem).2) := by
  have hd : (ints_of t).prefix_delimiter = t.prefix_delimiter := rfl
  have hb : (ints_of t).prefix_stats = t.prefix_stats := rfl
  unfold stats_prefix_find_int stats_prefix_find
  rw [hd, hb]
  cases scan_key t.prefix_delimiter key nkey 0 with
  | none => rfl
  | some length =>
    simp only [PREFIX_HASH_SIZE]
    cases find_in_chain key length
        (t.prefix_stats.getD (hash (key.take length) % t.prefix_stats.length) []) with
    | some i => rfl
    | none =>
      simp only []
      by_cases h1 : mem.calloc_ok = false
      · rw [if_pos h1, if_pos h1]
      · rw [if_neg h1, if_neg h1]
        by_cases h2 : mem.malloc_ok = false
        · rw [if_pos h2, if_pos h2]
        · rw [if_neg h2, if_neg h2]
          simp only [ints_of, int32_add, Nat.cast_add, Nat.cast_one]

theorem update_ints (f : PREFIX_STATS → PREFIX_STATS) (t : Table) (p : Nat × Nat) :
    update_record_int f (ints_of t) p = ints_of (update_record f t p) := rfl

theorem step_ints (hash : List Char → Nat) (t : Table) (op : Op) :
    step_int hash (ints_of t) op = ints_of (step hash t op) := by
  cases op with
  | init d => exact init_ints d t
  | clear => exact clear_ints t
  | record_get key nkey is_hit mem =>
    show stats_prefix_record_get_int hash (ints_of t) key nkey is_hit mem =
      ints_of (stats_prefix_record_get hash t key nkey is_hit mem)
    unfold stats_prefix_record_get_int stats_prefix_record_get
    rw [find_ints]
    rcases stats_prefix_find hash t key nkey mem with ⟨t1, _ | p⟩ <;> rfl
  | record_delete key nkey mem =>
    show stats_prefix_record_delete_int hash (ints_of t) key nkey mem =
      ints_of (stats_prefix_record_delete hash t key nkey mem)
    unfold stats_prefix_record_delete_int stats_prefix_record_delete
    rw [find_ints]
    rcases stats_prefix_find hash t key nkey mem with ⟨t1, _ | p⟩ <;> rfl
  | record_set key nkey mem =>
    show stats_prefix_record_set_int hash (ints_of t) key nkey mem =
      ints_of (stats_prefix_record_set hash t key nkey mem)
    unfold stats_prefix_record_set_int stats_prefix_record_set
    rw [find_ints]
    rcases stats_prefix_find hash t key nkey mem with ⟨t1, _ | p⟩ <;> rfl

/-- The `int`s of the code after any calls are the counters without wrap-around, stored
in `int`s: the two tables go through the same calls side by side. -/
theorem run_ints (hash : List Char → Nat) (ops : List Op) :
    ∀ t : Table, run_int hash (ints_of t) ops = ints_of (run hash t ops) := by
  induction ops with
  | nil => intro t; rfl
  | cons op rest ih =>
    intro t
    show run_int hash (step_int hash (ints_of t) op) rest = ints_of (run hash (step hash t op) rest)
    rw [step_ints, ih]

theorem dump_line_int_running (size : Nat) (pfs : PREFIX_STATS) (buf : List Char) (pos : Int)
    (total : Nat) :
    dump_line_int size pfs (DumpLoop.running buf pos total) =
      if pos < 0 ∨ (size : Int) < pos then DumpLoop.overrun pos
      else
        if (total + size_t_of (snprintf_int (size - pos.toNat) (format_line pfs)).2)
            % 18446744073709551616 < size then
          DumpLoop.running (buf ++ (snprintf_int (size - pos.toNat) (format_line pfs)).1)
            (int32 (pos + (size_t_of (snprintf_int (size - pos.toNat) (format_line pfs)).2 : Int)))
            ((total + size_t_of (snprintf_int (size - pos.toNat) (format_line pfs)).2)
              % 18446744073709551616)
        else DumpLoop.assert_failed := rfl

theorem snprintf_int_fits (n : Nat) (s : List Char) (h : s.length < 2147483648) :
    snprintf_int n s = (s.take (n - 1), (s.length : Int)) := by
  unfold snprintf_int
  rw [if_pos h]

/-- A line that fits: it is written in full and the assertion holds. -/
theorem dump_line_int_ok (size : Nat) (r : PREFIX_STATS) (buf : List Char) (pos : Int)
    (total : Nat) (h0 : 0 ≤ pos) (hlen : (format_line r).length < 2147483648)
    (hroom : pos + ((format_line r).length : Int) < (size : Int))
    (htot : total + (format_line r).length < size) (hsize : size ≤ 18446744073709551616) :
    dump_line_int size r (DumpLoop.running buf pos total) =
      DumpLoop.running (buf ++ format_line r) (int32 (pos + ((format_line r).length : Int)))
        (total + (format_line r).length) := by
  have hw : size_t_of ((format_line r).length : Int) = (format_line r).length :=
    size_t_of_fits _ (by omega)
  have htake : List.take (size - pos.toNat - 1) (format_line r) = format_line r :=
    List.take_of_length_le (by omega)
  rw [dump_line_int_running, snprintf_int_fits _ _ hlen]
  simp only [hw]
  rw [if_neg (by omega), Nat.mod_eq_of_lt (by omega), if_pos htot, htake]

/-- A line that brings `total_written` to `size` or above fails the assertion. -/
theorem dump_line_int_assert (size : Nat) (r : PREFIX_STATS) (buf : List Char) (pos : Int)
    (total : Nat) (h0 : 0 ≤ pos) (hpos : pos ≤ (size : Int))
    (hlen : (format_line r).length < 2147483648)
    (htot : size ≤ total + (format_line r).length)
    (hno : total + (format_line r).length < 18446744073709551616) :
    dump_line_int size r (DumpLoop.running buf pos total) = DumpLoop.assert_failed := by
  have hw : size_t_of ((format_line r).length : Int) = (format_line r).length :=
    size_t_of_fits _ (by omega)
  rw [dump_line_int_running, snprintf_int_fits _ _ hlen]
  simp only [hw]
  rw [if_neg (by omega), Nat.mod_eq_of_lt hno, if_neg (by omega)]

theorem dump_line_int_assert_failed (size : Nat) (r : PREFIX_STATS) :
    dump_line_int size r DumpLoop.assert_failed = DumpLoop.assert_failed := rfl

theorem dump_line_int_overrun (size : Nat) (r : PREFIX_STATS) (p : Int) :
    dump_line_int size r (DumpLoop.overrun p) = DumpLoop.overrun p := rfl

theorem dump_chain_int_assert_failed (size : Nat) (chain : List PREFIX_STATS) :
    dump_chain_int size chain DumpLoop.assert_failed = DumpLoop.assert_failed := by
  induction chain with
  | nil => rfl
  | cons r next ih => rw [dump_chain_int, dump_line_int_assert_failed, ih]

theorem dump_chain_int_overrun (size : Nat) (chain : List PREFIX_STATS) (p : Int) :
    dump_chain_int size chain (DumpLoop.overrun p) = DumpLoop.overrun p := by
  induction chain with
  | nil => rfl
  | cons r next ih => rw [dump_chain_int, dump_line_int_overrun, ih]

theorem dump_chain_int_append (size : Nat) (c1 c2 : List PREFIX_STATS) (st : DumpLoop) :
    dump_chain_int size (c1 ++ c2) st = dump_chain_int size c2 (dump_chain_int size c1 st) := by
  induction c1 generalizing st with
  | nil => rfl
  | cons r next ih =>
    rw [List.cons_append, dump_chain_int, dump_chain_int, ih]

/-- The two loops together walk the records in dump order. -/
theorem dump_buckets_int_flatten (size : Nat) (buckets : List (List PREFIX_STATS))
    (st : DumpLoop) :
    dump_buckets_int size buckets st = dump_chain_int size buckets.flatten st := by
  induction buckets generalizing st with
  | nil => rfl
  | cons chain rest ih =>
    rw [dump_buckets_int, List.flatten_cons, dump_chain_int_append, ih]

theorem dump_chain_int_ok (size : Nat) (hsize : size ≤ 18446744073709551616)
    (chain : List PREFIX_STATS) (buf : List Char) (total : Nat)
    (hfit : total + (chain_lines chain).length < size)
    (hint : total + (chain_lines chain).length < 2147483648) :
    dump_chain_int size chain (DumpLoop.running buf (total : Int) total) =
      DumpLoop.running (buf ++ chain_lines chain)
        ((total + (chain_lines chain).length : Nat) : Int)
        (total + (chain_lines chain).length) := by
  induction chain generalizing buf total with
  | nil =>
    have e : chain_lines [] = [] := rfl
    rw [e, dump_chain_int, List.append_nil, List.length_nil, Nat.add_zero]
  | cons r next ih =>
    rw [chain_lines_cons, List.length_append] at hfit hint
    rw [dump_chain_int,
      dump_line_int_ok size r buf total total (by omega) (by omega) (by omega) (by omega) hsize,
      int32_of_fits _ (by omega) (by omega)]
    have e : ((total : Int) + ((format_line r).length : Int)) =
        ((total + (format_line r).length : Nat) : Int) := by omega
    rw [e, ih (buf ++ format_line r) (total + (format_line r).length) (by omega) (by omega),
      chain_lines_cons, List.length_append, List.append_assoc, Nat.add_assoc]

theorem dump_size_int_eq (t : TableInt) :
    dump_size_int t = size_t_of (53 + t.total_prefix_size + t.num_prefixes * 109) := by
  have h : (format.length : Int) = 47 := by rw [format_length]; rfl
  unfold dump_size_int
  rw [h]
  congr 1
  omega

theorem dump_size_int_le (t : TableInt) : dump_size_int t ≤ 18446744073709551616 := by
  unfold dump_size_int size_t_of
  omega

theorem dump_size_int_of_fits (t : Table) (hn : t.num_prefixes < 2147483648)
    (ht : t.total_prefix_size < 2147483648) : dump_size_int (ints_of t) = dump_size t := by
  have e1 : (ints_of t).num_prefixes = (t.num_prefixes : Int) :=
    int32_of_fits _ (by omega) (by omega)
  have e2 : (ints_of t).total_prefix_size = (t.total_prefix_size : Int) :=
    int32_of_fits _ (by omega) (by omega)
  rw [dump_size_eq, dump_size_int_eq, e1, e2]
  unfold size_t_of
  omega

/-- While the two counters and the length of the report stay below `2 ^ 31`, the dump
with `int` variables returns what `stats_prefix_dump` returns. -/
theorem dump_int_agrees (t : Table) (hcover : counts_cover t)
    (hn : t.num_prefixes < 2147483648) (ht : t.total_prefix_size < 2147483648)
    (hlen : (report_lines t).length + 5 < 2147483648) :
    stats_prefix_dump_int (ints_of t) true =
      DumpResultInt.ok (report_lines t ++ "END\r\n".toList ++ [NUL])
        (((report_lines t).length + 5 : Nat) : Int) := by
  have hb := report_lines_bound t hcover
  have e : report_lines t = chain_lines t.prefix_stats.flatten := rfl
  rw [e] at hb hlen ⊢
  have hs := dump_size_int_of_fits t hn ht
  have hrun := dump_chain_int_ok (dump_size_int (ints_of t)) (dump_size_int_le _)
    t.prefix_stats.flatten [] 0 (by omega) (by omega)
  have hcast : ((0 : Nat) : Int) = 0 := rfl
  have hp : (ints_of t).prefix_stats = t.prefix_stats := rfl
  rw [hcast, Nat.zero_add, List.nil_append] at hrun
  unfold stats_prefix_dump_int
  simp only [dump_buckets_int_flatten, hp, hrun]
  rw [if_neg (by decide), if_pos (by omega), int32_of_fits _ (by omega) (by omega)]
  congr 1

/-- After any calls from process start, while `num_prefixes`, `total_prefix_size` and the
length of the report stay below `2 ^ 31`, the dump with `int` variables passes every
assertion and returns the whole report with its length. -/
theorem dump_int_of_run (hash : List Char → Nat) (n : Nat) (ops : List Op)
    (hn : (run hash (process_start n) ops).num_prefixes < 2147483648)
    (ht : (run hash (process_start n) ops).total_prefix_size < 2147483648)
    (hlen : (report_lines (run hash (process_start n) ops)).length + 5 < 2147483648) :
    stats_prefix_dump_int (run_int hash (process_start_int n) ops) true =
      DumpResultInt.ok
        (report_lines (run hash (process_start n) ops) ++ "END\r\n".toList ++ [NUL])
        (((report_lines (run hash (process_start n) ops)).length + 5 : Nat) : Int) := by
  rw [process_start_ints, run_ints]
  exact dump_int_agrees _ (counts_cover_run hash ops _ (counts_cover_process_start n)) hn ht
    hlen

/-! ## Keys with very long prefixes -/

theorem find_in_chain_of_all_false (key : List Char) (length : Nat)
    (chain : List PREFIX_STATS)
    (h : ∀ r ∈ chain, strncmp_eq r.prefix_ key length = false) :
    find_in_chain key length chain = none := by
  induction chain with
  | nil => rfl
  | cons r next ih =>
    have h1 := h r (List.mem_cons_self _ _)
    have h2 := ih (fun q hq => h q (List.mem_cons_of_mem _ hq))
    simp only [find_in_chain, h1, h2]
    rfl

theorem byte_at_replicate_zero (ch : Char) (n : Nat) (rest : List Char) (hn : 0 < n) :
    byte_at (List.replicate n ch ++ rest) 0 = ch := by
  obtain ⟨m, rfl⟩ : ∃ m, n = m + 1 := ⟨n - 1, by omega⟩
  rfl

theorem strncmp_big_key (a b : Char) (n : Nat) (hn : 0 < n) (hab : a ≠ b) :
    strncmp_eq (List.replicate n a) (big_key b n) n = false := by
  obtain ⟨m, rfl⟩ : ∃ m, n = m + 1 := ⟨n - 1, by omega⟩
  have h1 : byte_at (List.replicate (m + 1) a) 0 = a := rfl
  have h2 : byte_at (big_key b (m + 1)) 0 = b := rfl
  rw [strncmp_eq, h1, h2, if_pos hab]

theorem not_mem_replicate (ch x : Char) (n : Nat) (h : x ≠ ch) : x ∉ List.replicate n ch := by
  intro hx
  exact h (List.eq_of_mem_replicate hx)

theorem big_key_take (ch : Char) (n : Nat) :
    (big_key ch n).take ((List.replicate n ch).length + 1) = List.replicate n ch ++ ['['] := by
  apply List.take_of_length_le
  simp [big_key]

theorem scan_big_key (ch : Char) (n : Nat) (h0 : ch ≠ NUL) (hd : ch ≠ '[') :
    scan_key '[' (big_key ch n) (n + 1) 0 = some n := by
  have h := scan_prefixed_key '[' (List.replicate n ch) (big_key ch n) (n + 1) (by decide)
    (not_mem_replicate ch NUL n (Ne.symm h0)) (not_mem_replicate ch '[' n (Ne.symm hd))
    (big_key_take ch n) (by simp)
  rw [List.length_replicate] at h
  exact h

theorem new_record_big_key (ch : Char) (n : Nat) (h0 : ch ≠ NUL) :
    bump_get false (new_record (big_key ch n) n) = big_record ch n := by
  have h := strncpy_prefixed_key (List.replicate n ch) (big_key ch n) '['
    (not_mem_replicate ch NUL n (Ne.symm h0)) (big_key_take ch n)
  rw [List.length_replicate] at h
  simp only [bump_get, new_record, h, big_record]
  rfl

theorem big_table_buckets (cs : List Char) (n : Nat) :
    (big_table cs n).prefix_stats =
      (List.replicate 16 []).set 7 (cs.map (fun ch => big_record ch n)) := rfl

theorem big_table_records (cs : List Char) (n : Nat) :
    all_records (big_table cs n) = cs.map (fun ch => big_record ch n) := by
  unfold all_records
  rw [big_table_buckets]
  exact flatten_set_replicate 16 7 _ (by decide)

/-- The call `stats_prefix_find` for a key with a long prefix that is not yet stored
allocates a record and returns the head of bucket 7. -/
theorem find_big (done : List Char) (ch : Char) (n : Nat) (hn : 0 < n) (h0 : ch ≠ NUL)
    (hd : ch ≠ '[') (hnew : ch ∉ done) :
    stats_prefix_find colliding_hash (big_table done n) (big_key ch n) (n + 1) Alloc.success =
      (table_with_new colliding_hash (big_table done n) (big_key ch n) n, some (7, 0)) := by
  have hb : bucket_of colliding_hash (big_table done n) (big_key ch n) n = 7 := rfl
  have hchain : (big_table done n).prefix_stats.getD 7 [] =
      done.map (fun x => big_record x n) := by
    rw [big_table_buckets]
    exact getD_set_replicate 16 7 _ (by decide)
  have hs : scan_key (big_table done n).prefix_delimiter (big_key ch n) (n + 1) 0 = some n :=
    scan_big_key ch n h0 hd
  have hc : find_in_chain (big_key ch n) n
      ((big_table done n).prefix_stats.getD
        (bucket_of colliding_hash (big_table done n) (big_key ch n) n) []) = none := by
    rw [hb, hchain]
    apply find_in_chain_of_all_false
    intro r hr
    obtain ⟨x, hx, rfl⟩ := List.mem_map.1 hr
    exact strncmp_big_key x ch n hn (fun e => hnew (e ▸ hx))
  have hf := find_created_table colliding_hash (big_table done n) (big_key ch n) (n + 1)
    Alloc.success n hs hc rfl rfl
  rw [hb] at hf
  exact hf

/-- One `record_get` of a key with a long prefix that is not yet stored puts its record
in front of the chain and advances both counters. -/
theorem big_step (done : List Char) (ch : Char) (n : Nat) (hn : 0 < n) (h0 : ch ≠ NUL)
    (hd : ch ≠ '[') (hnew : ch ∉ done) :
    step colliding_hash (big_table done n)
        (Op.record_get (big_key ch n) (n + 1) false Alloc.success) =
      big_table (ch :: done) n := by
  have hb : bucket_of colliding_hash (big_table done n) (big_key ch n) n = 7 := rfl
  have hchain : (big_table done n).prefix_stats.getD 7 [] =
      done.map (fun x => big_record x n) := by
    rw [big_table_buckets]
    exact getD_set_replicate 16 7 _ (by decide)
  have hf := find_big done ch n hn h0 hd hnew
  have hg := record_get_of_find colliding_hash (big_table done n) (big_key ch n) (n + 1) false
    Alloc.success (7, 0) (by rw [hf])
  show stats_prefix_record_get colliding_hash (big_table done n) (big_key ch n) (n + 1) false
    Alloc.success = _
  rw [hg, hf]
  simp only [update_record, table_with_new, hb, hchain]
  rw [big_table_buckets, List.set_set,
    modify_at_set _ _ _ _ (by decide), modify_at, new_record_big_key ch n h0]
  simp only [big_table, big_buckets, List.map_cons, List.length_cons, Nat.succ_mul]

/-- The table after recording one `get` for each of several long prefixes. -/
theorem run_big (n : Nat) (hn : 0 < n) (cs : List Char) :
    ∀ done : List Char, (∀ ch ∈ cs, ch ≠ NUL ∧ ch ≠ '[') → (cs ++ done).Nodup →
      run colliding_hash (big_table done n) (big_gets cs n) =
        big_table (cs.reverse ++ done) n := by
  induction cs with
  | nil => intro done _ _; rfl
  | cons ch rest ih =>
    intro done hcs hnd
    have hch := hcs ch (List.mem_cons_self _ _)
    have hnd1 : ch ∉ rest ++ done := (List.nodup_cons.1 hnd).1
    have hnd2 : (rest ++ ch :: done).Nodup := List.nodup_middle.2 hnd
    show run colliding_hash (big_table done n)
      (Op.record_get (big_key ch n) (n + 1) false Alloc.success :: big_gets rest n) = _
    rw [run_cons, big_step done ch n hn hch.1 hch.2 (fun h => hnd1 (List.mem_append_right _ h)),
      ih (ch :: done) (fun x hx => hcs x (List.mem_cons_of_mem _ hx)) hnd2,
      List.reverse_cons, List.append_assoc]
    rfl

theorem init_big_table (n : Nat) :
    stats_prefix_init '[' (process_start 16) = big_table [] n := by
  simp only [big_table, List.length_nil, Nat.zero_mul]
  rfl

/-- From process start: `init('[')`, then one `record_get` for each long prefix. -/
theorem run_big_from_init (n : Nat) (hn : 0 < n) (cs : List Char)
    (hcs : ∀ ch ∈ cs, ch ≠ NUL ∧ ch ≠ '[') (hnd : cs.Nodup) :
    run colliding_hash (stats_prefix_init '[' (process_start 16)) (big_gets cs n) =
      big_table cs.reverse n := by
  rw [init_big_table n, run_big n hn cs [] hcs (by rw [List.append_nil]; exact hnd),
    List.append_nil]

/-- From process start on the `int`s of the code: `init('[')`, then one `record_get` for
each long prefix. -/
theorem run_int_big_from_init (n : Nat) (hn : 0 < n) (cs : List Char)
    (hcs : ∀ ch ∈ cs, ch ≠ NUL ∧ ch ≠ '[') (hnd : cs.Nodup) :
    run_int colliding_hash (stats_prefix_init_int '[' (process_start_int 16)) (big_gets cs n) =
      ints_of (big_table cs.reverse n) := by
  rw [process_start_ints, init_ints, run_ints, run_big_from_init n hn cs hcs hnd]

/-- On the `int`s of the code: `stats_prefix_find` for a key with a long prefix that is
not yet stored. -/
theorem find_int_big (done : List Char) (ch : Char) (n : Nat) (hn : 0 < n) (h0 : ch ≠ NUL)
    (hd : ch ≠ '[') (hnew : ch ∉ done) :
    stats_prefix_find_int colliding_hash (ints_of (big_table done n)) (big_key ch n) (n + 1)
        Alloc.success =
      (ints_of (table_with_new colliding_hash (big_table done n) (big_key ch n) n),
        some (7, 0)) := by
  rw [find_ints, find_big done ch n hn h0 hd hnew]

theorem ints_big_num_prefixes (cs : List Char) (n : Nat) :
    (ints_of (big_table cs n)).num_prefixes = int32 ((cs.length : Nat) : Int) := rfl

theorem ints_big_total_prefix_size (cs : List Char) (n : Nat) :
    (ints_of (big_table cs n)).total_prefix_size = int32 ((cs.length * n : Nat) : Int) := rfl

theorem ints_big_buckets (cs : List Char) (n : Nat) :
    (ints_of (big_table cs n)).prefix_stats = big_buckets cs n := rfl

theorem big_buckets_flatten (cs : List Char) (n : Nat) :
    (big_buckets cs n).flatten = cs.map (fun ch => big_record ch n) :=
  flatten_set_replicate 16 7 _ (by decide)

theorem big_buckets_getD (cs : List Char) (n : Nat) :
    (big_buckets cs n).getD 7 [] = cs.map (fun ch => big_record ch n) :=
  getD_set_replicate 16 7 _ (by decide)

theorem big_prefix_len_sum (cs : List Char) (n : Nat) :
    (((big_buckets cs n).flatten).map (fun r => r.prefix_len)).sum = cs.length * n := by
  rw [big_buckets_flatten]
  induction cs with
  | nil => simp
  | cons ch rest ih =>
    rw [List.map_cons, List.map_cons, List.sum_cons, ih, List.length_cons, Nat.succ_mul]
    show n + rest.length * n = rest.length * n + n
    omega

theorem big_prefix_bytes (cs : List Char) (n : Nat) (h0 : ∀ ch ∈ cs, ch ≠ NUL) :
    prefix_bytes (big_buckets cs n).flatten = cs.length * n := by
  rw [big_buckets_flatten]
  induction cs with
  | nil => simp [prefix_bytes]
  | cons ch rest ih =>
    have h1 : cstr (List.replicate n ch) = List.replicate n ch :=
      cstr_of_not_mem _ (not_mem_replicate ch NUL n (Ne.symm (h0 ch (List.mem_cons_self _ _))))
    have h2 := ih (fun x hx => h0 x (List.mem_cons_of_mem _ hx))
    rw [List.map_cons, prefix_bytes_cons, h2]
    simp only [big_record, h1, List.length_replicate, List.length_cons, Nat.succ_mul]
    omega

theorem format_line_big (ch : Char) (n : Nat) (h0 : ch ≠ NUL) :
    (format_line (big_record ch n)).length = 33 + n := by
  have h1 : cstr (List.replicate n ch) = List.replicate n ch :=
    cstr_of_not_mem _ (not_mem_replicate ch NUL n (Ne.symm h0))
  have d1 : (dec 1).length = 1 := by decide
  have d0 : (dec 0).length = 1 := by decide
  rw [format_line_length]
  simp only [big_record, h1, List.length_replicate, d1, d0]
  omega

/-- The length of the report for the long prefixes, without its `END` line. -/
theorem chain_lines_big (cs : List Char) (n : Nat) (h0 : ∀ ch ∈ cs, ch ≠ NUL) :
    (chain_lines (big_buckets cs n).flatten).length = cs.length * (33 + n) := by
  rw [big_buckets_flatten]
  induction cs with
  | nil => simp [chain_lines]
  | cons ch rest ih =>
    rw [List.map_cons, chain_lines_cons, List.length_append,
      ih (fun x hx => h0 x (List.mem_cons_of_mem _ hx)),
      format_line_big ch n (h0 ch (List.mem_cons_self _ _)), List.length_cons, Nat.succ_mul]
    omega

theorem big_record_fit (ch : Char) (n : Nat) : counters_fit (big_record ch n) := by
  have h1 : (1 : Nat) < 2 ^ 64 := by decide
  have h0 : (0 : Nat) < 2 ^ 64 := by decide
  exact ⟨h1, h0, h0, h0⟩

theorem dump_int_big (t : TableInt) (cs : List Char) (n : Nat)
    (hb : t.prefix_stats = big_buckets cs n) :
    stats_prefix_dump_int t true =
      match dump_chain_int (dump_size_int t)
          (cs.map (fun ch => big_record ch n)) (DumpLoop.running [] 0 0) with
      | DumpLoop.assert_failed => DumpResultInt.assert_failed
      | DumpLoop.overrun pos => DumpResultInt.overrun pos
      | DumpLoop.running buf pos _ =>
        if 0 ≤ pos ∧ pos + 6 ≤ (dump_size_int t : Int) then
          DumpResultInt.ok (buf ++ "END\r\n".toList ++ [NUL]) (int32 (pos + 5))
        else DumpResultInt.memcpy_outside pos (int32 (pos + 5)) := by
  unfold stats_prefix_dump_int
  simp only [dump_buckets_int_flatten, hb, big_buckets_flatten]
  rfl

/-- A first line longer than the computed size fails the assertion. -/
theorem dump_big_assert (t : TableInt) (ch : Char) (cs : List Char) (n : Nat)
    (hb : t.prefix_stats = big_buckets (ch :: cs) n) (h0 : ch ≠ NUL)
    (hlen : 33 + n < 2147483648) (hsize : dump_size_int t ≤ 33 + n) :
    stats_prefix_dump_int t true = DumpResultInt.assert_failed := by
  have hl := format_line_big ch n h0
  rw [dump_int_big t _ n hb, List.map_cons, dump_chain_int,
    dump_line_int_assert _ _ _ 0 0 (by omega) (by omega) (by omega) (by omega) (by omega),
    dump_chain_int_assert_failed]

/-- Two lines that fit the computed size and together reach `2 ^ 31` bytes leave a
negative `pos`. -/
theorem dump_big_two (t : TableInt) (a b : Char) (n : Nat)
    (hbk : t.prefix_stats = big_buckets [a, b] n) (ha : a ≠ NUL) (hb : b ≠ NUL)
    (hlen : 33 + n < 2147483648) (hwrap : 2147483648 ≤ 2 * (33 + n))
    (hsize : 2 * (33 + n) < dump_size_int t) :
    stats_prefix_dump_int t true =
      DumpResultInt.memcpy_outside ((2 * (33 + n) : Nat) - 4294967296)
        (int32 (((2 * (33 + n) : Nat) : Int) - 4294967296 + 5)) := by
  have hla := format_line_big a n ha
  have hlb := format_line_big b n hb
  have hle := dump_size_int_le t
  rw [dump_int_big t _ n hbk, List.map_cons, List.map_cons, List.map_nil, dump_chain_int,
    dump_chain_int, dump_chain_int,
    dump_line_int_ok _ _ _ 0 0 (by omega) (by omega) (by omega) (by omega) hle,
    hla, int32_of_fits _ (by omega) (by omega), Nat.zero_add,
    dump_line_int_ok _ _ _ _ _ (by omega) (by omega) (by omega) (by omega) hle, hlb]
  have e : int32 (0 + ((33 + n : Nat) : Int) + ((33 + n : Nat) : Int)) =
      ((2 * (33 + n) : Nat) : Int) - 4294967296 := by
    unfold int32
    omega
  rw [e]
  simp only []
  rw [if_neg (by omega)]

/-! ## C6, C9, C10, C14, C15: where the `int` variables wrap -/

/-- C6 at a failing input: after `init('[')` at process start and four `record_get`
calls with keys whose prefixes are `2 ^ 30` bytes each (`a`, `b`, `c`, `d`), the `int`
`total_prefix_size` is 0 and `num_prefixes` is 4, so `dump` computes
`size = 47 + 0 + 4 * 109 + 6 = 489`, while the four lines have `4294967428` bytes; the
first line has `1073741857` bytes, it is cut to the buffer and the assertion
`total_written < size` fails. -/
theorem dump_assertion_fails :
    (run_int colliding_hash (stats_prefix_init_int '[' (process_start_int 16))
      (big_gets ['a', 'b', 'c', 'd'] 1073741824)).num_prefixes = 4 ∧
    (run_int colliding_hash (stats_prefix_init_int '[' (process_start_int 16))
      (big_gets ['a', 'b', 'c', 'd'] 1073741824)).total_prefix_size = 0 ∧
    dump_size_int (run_int colliding_hash (stats_prefix_init_int '[' (process_start_int 16))
      (big_gets ['a', 'b', 'c', 'd'] 1073741824)) = 489 ∧
    (chain_lines (run_int colliding_hash (stats_prefix_init_int '[' (process_start_int 16))
      (big_gets ['a', 'b', 'c', 'd'] 1073741824)).prefix_stats.flatten).length = 4294967428 ∧
    stats_prefix_dump_int
      (run_int colliding_hash (stats_prefix_init_int '[' (process_start_int 16))
        (big_gets ['a', 'b', 'c', 'd'] 1073741824)) true = DumpResultInt.assert_failed := by
  have hrun : run_int colliding_hash (stats_prefix_init_int '[' (process_start_int 16))
      (big_gets ['a', 'b', 'c', 'd'] 1073741824) =
        ints_of (big_table ['d', 'c', 'b', 'a'] 1073741824) :=
    run_int_big_from_init 1073741824 (by decide) ['a', 'b', 'c', 'd'] (by decide) (by decide)
  have hsize : dump_size_int (ints_of (big_table ['d', 'c', 'b', 'a'] 1073741824)) = 489 := by
    rw [dump_size_int_eq, ints_big_num_prefixes, ints_big_total_prefix_size]; decide
  rw [hrun]
  refine ⟨?_, ?_, hsize, ?_, ?_⟩
  · rw [ints_big_num_prefixes]; decide
  · rw [ints_big_total_prefix_size]; decide
  · rw [ints_big_buckets, chain_lines_big _ _ (by decide)]; decide
  · exact dump_big_assert _ 'd' ['c', 'b', 'a'] 1073741824 (ints_big_buckets _ _) (by decide)
      (by decide) (by rw [hsize]; decide)

/-- C9 at a failing input: a table of 16 buckets whose bucket 7 holds two records with
prefixes of `1073741804` bytes each, with `num_prefixes = 2` and
`total_prefix_size = 2147483608`, the number of records and the sum of the prefix
lengths.  `dump` computes `size = 2147483879`, both lines of `1073741837` bytes pass the
assertion and are written in full, then the `int` `pos` is `-2147483622`, the final
`memcpy` of `END` is to an address in front of the buffer and `*length` is set to
`-2147483617`: the buffer does not hold the two lines followed by `END`. -/
theorem dump_end_outside_buffer :
    (big_buckets ['b', 'a'] 1073741804).flatten.length = 2 ∧
    prefix_bytes (big_buckets ['b', 'a'] 1073741804).flatten = 2147483608 ∧
    (∀ r ∈ (big_buckets ['b', 'a'] 1073741804).flatten, counters_fit r) ∧
    dump_size_int
      { prefix_stats := big_buckets ['b', 'a'] 1073741804, prefix_delimiter := '[',
        num_prefixes := 2, total_prefix_size := 2147483608 } = 2147483879 ∧
    stats_prefix_dump_int
      { prefix_stats := big_buckets ['b', 'a'] 1073741804, prefix_delimiter := '[',
        num_prefixes := 2, total_prefix_size := 2147483608 } true =
      DumpResultInt.memcpy_outside (-2147483622) (-2147483617) := by
  have hsize : dump_size_int
      { prefix_stats := big_buckets ['b', 'a'] 1073741804, prefix_delimiter := '[',
        num_prefixes := 2, total_prefix_size := 2147483608 } = 2147483879 := by
    rw [dump_size_int_eq]; decide
  refine ⟨?_, ?_, ?_, hsize, ?_⟩
  · rw [big_buckets_flatten]; rfl
  · rw [big_prefix_bytes _ _ (by decide)]; decide
  · rw [big_buckets_flatten]
    intro r hr
    obtain ⟨x, _, rfl⟩ := List.mem_map.1 hr
    exact big_record_fit x 1073741804
  · rw [dump_big_two _ 'b' 'a' 1073741804 rfl (by decide) (by decide) (by decide) (by decide)
      (by rw [hsize]; decide)]
    decide

/-- C10 at a failing input: after `init('[')` at process start and two `record_get`
calls with keys whose prefixes are `1073741804` bytes `a` and `1073741804` bytes `b`, the
report text has `2147483679` bytes, `END` included, but `dump` ends with the `int`
`pos = -2147483622`, copies `END` to an address in front of the buffer and stores
`-2147483617` in `*length`. -/
theorem dump_length_negative :
    (chain_lines (run_int colliding_hash (stats_prefix_init_int '[' (process_start_int 16))
      (big_gets ['a', 'b'] 1073741804)).prefix_stats.flatten).length + 5 = 2147483679 ∧
    stats_prefix_dump_int
      (run_int colliding_hash (stats_prefix_init_int '[' (process_start_int 16))
        (big_gets ['a', 'b'] 1073741804)) true =
      DumpResultInt.memcpy_outside (-2147483622) (-2147483617) := by
  have hrun : run_int colliding_hash (stats_prefix_init_int '[' (process_start_int 16))
      (big_gets ['a', 'b'] 1073741804) = ints_of (big_table ['b', 'a'] 1073741804) :=
    run_int_big_from_init 1073741804 (by decide) ['a', 'b'] (by decide) (by decide)
  have hsize : dump_size_int (ints_of (big_table ['b', 'a'] 1073741804)) = 2147483879 := by
    rw [dump_size_int_eq, ints_big_num_prefixes, ints_big_total_prefix_size]; decide
  rw [hrun]
  refine ⟨?_, ?_⟩
  · rw [ints_big_buckets, chain_lines_big _ _ (by decide)]; decide
  · rw [dump_big_two _ 'b' 'a' 1073741804 (ints_big_buckets _ _) (by decide) (by decide)
      (by decide) (by decide) (by rw [hsize]; decide)]
    decide

/-- C14 at a failing input: in the table reached by `init('[')` and one `record_get` of a
key with a prefix of `2 ^ 30` bytes `a`, where `num_prefixes` is 1 and
`total_prefix_size` is `1073741824`, `stats_prefix_find` is called with a key whose first
delimiter is at `p = 2 ^ 30` behind bytes `b`.  The call allocates a record, puts it at
the head of bucket 7 and returns it, `num_prefixes` becomes 2, but the `int`
`total_prefix_size` becomes `-2147483648`, not `1073741824 + p = 2147483648`. -/
theorem find_total_wraps :
    scan_key '[' (big_key 'b' 1073741824) 1073741825 0 = some 1073741824 ∧
    (run_int colliding_hash (stats_prefix_init_int '[' (process_start_int 16))
      (big_gets ['a'] 1073741824)).num_prefixes = 1 ∧
    (run_int colliding_hash (stats_prefix_init_int '[' (process_start_int 16))
      (big_gets ['a'] 1073741824)).total_prefix_size = 1073741824 ∧
    (stats_prefix_find_int colliding_hash
      (run_int colliding_hash (stats_prefix_init_int '[' (process_start_int 16))
        (big_gets ['a'] 1073741824))
      (big_key 'b' 1073741824) 1073741825 Alloc.success).2 = some (7, 0) ∧
    (stats_prefix_find_int colliding_hash
      (run_int colliding_hash (stats_prefix_init_int '[' (process_start_int 16))
        (big_gets ['a'] 1073741824))
      (big_key 'b' 1073741824) 1073741825 Alloc.success).1.prefix_stats.getD 7 [] =
      new_record (big_key 'b' 1073741824) 1073741824 ::
        (run_int colliding_hash (stats_prefix_init_int '[' (process_start_int 16))
          (big_gets ['a'] 1073741824)).prefix_stats.getD 7 [] ∧
    (stats_prefix_find_int colliding_hash
      (run_int colliding_hash (stats_prefix_init_int '[' (process_start_int 16))
        (big_gets ['a'] 1073741824))
      (big_key 'b' 1073741824) 1073741825 Alloc.success).1.num_prefixes = 2 ∧
    (stats_prefix_find_int colliding_hash
      (run_int colliding_hash (stats_prefix_init_int '[' (process_start_int 16))
        (big_gets ['a'] 1073741824))
      (big_key 'b' 1073741824) 1073741825 Alloc.success).1.total_prefix_size =
      -2147483648 := by
  have hrun : run_int colliding_hash (stats_prefix_init_int '[' (process_start_int 16))
      (big_gets ['a'] 1073741824) = ints_of (big_table ['a'] 1073741824) :=
    run_int_big_from_init 1073741824 (by decide) ['a'] (by decide) (by decide)
  have hf := find_int_big ['a'] 'b' 1073741824 (by decide) (by decide) (by decide) (by decide)
  rw [hrun, hf]
  refine ⟨scan_big_key 'b' 1073741824 (by decide) (by decide), ?_, ?_, rfl, ?_, ?_, ?_⟩
  · rw [ints_big_num_prefixes]; decide
  · rw [ints_big_total_prefix_size]; decide
  · exact getD_set_self _ 7 _ (by decide)
  · show int32 (((['a'].length + 1 : Nat) : Nat) : Int) = 2
    decide
  · show int32 (((['a'].length * 1073741824 + 1073741824 : Nat) : Nat) : Int) = -2147483648
    decide

/-- C15 at a failing input: after `init('[')` at process start and two `record_get` calls
with keys whose prefixes are `2 ^ 30` bytes `a` and `2 ^ 30` bytes `b`, two records are
stored, `num_prefixes` is 2 and the sum of `prefix_len` over the records is
`2147483648`, but the `int` `total_prefix_size` is `-2147483648`. -/
theorem total_prefix_size_wraps :
    (run_int colliding_hash (stats_prefix_init_int '[' (process_start_int 16))
      (big_gets ['a', 'b'] 1073741824)).prefix_stats.flatten.length = 2 ∧
    (run_int colliding_hash (stats_prefix_init_int '[' (process_start_int 16))
      (big_gets ['a', 'b'] 1073741824)).num_prefixes = 2 ∧
    ((run_int colliding_hash (stats_prefix_init_int '[' (process_start_int 16))
      (big_gets ['a', 'b'] 1073741824)).prefix_stats.flatten.map
        (fun r => r.prefix_len)).sum = 2147483648 ∧
    (run_int colliding_hash (stats_prefix_init_int '[' (process_start_int 16))
      (big_gets ['a', 'b'] 1073741824)).total_prefix_size = -2147483648 := by
  have hrun : run_int colliding_hash (stats_prefix_init_int '[' (process_start_int 16))
      (big_gets ['a', 'b'] 1073741824) = ints_of (big_table ['b', 'a'] 1073741824) :=
    run_int_big_from_init 1073741824 (by decide) ['a', 'b'] (by decide) (by decide)
  rw [hrun]
  refine ⟨?_, ?_, ?_, ?_⟩
  · rw [ints_big_buckets, big_buckets_flatten]; rfl
  · rw [ints_big_num_prefixes]; decide
  · rw [ints_big_buckets, big_prefix_len_sum]; decide
  · rw [ints_big_total_prefix_size]; decide

end Stats
